import Mathlib

/-!
# Verification of the believeth staking core

Shallow embedding of the staking ledger (`contracts/BeliefStake.sol`) and its
bootstrap yield backend (`contracts/NullYieldStrategy.sol`).

Modelling conventions:
* Addresses and `bytes32` claim identifiers are `Nat` (the zero value plays the
  role of `address(0)` / `bytes32(0)`).
* `uint256` quantities are `Nat`.  Additions are unbounded (a `uint256`
  overflow needs more value than the token's total supply, and no claim is
  about overflow); subtractions and decrements, which Solidity 0.8 checks and
  which the code relies on, are modelled by an explicit checked subtraction
  returning `Except`.
* A reverting operation is an `Except.error`: by EVM transaction semantics the
  whole call's state changes are discarded, so an `error` result denotes "state
  unchanged, with this failure reason".
* ERC20 token state (balances and allowances, for every token address) is
  carried in the world state; `safeTransfer`/`safeTransferFrom` fail exactly
  when funds or allowance are insufficient, matching the OpenZeppelin
  implementation used by the contracts.
-/

/-- Revert reasons of the two contracts plus the mechanical failure modes of
the EVM/token layer that the code relies on. -/
inductive Err where
  | InvalidAddress
  | InvalidAttestationUID
  | AlreadyStaked
  | NoStakeFound
  | StrategyMismatch
  | OnlyVault
  | InsufficientBalance
  | ERC20Failure
  | NotOwner
  | NoContract
  | Underflow
deriving DecidableEq

/-- `BeliefStake.StakeInfo`: per (attestationUID, staker) record. An `amount`
of `0` means "no active stake" (Solidity mapping default). -/
structure StakeInfo where
  amount : Nat
  timestamp : Nat
deriving DecidableEq

/-- State of one deployed `NullYieldStrategy` contract: the immutables `_usdc`
and `_vault` fixed at construction, plus the `_principal` counter. -/
structure Strategy where
  usdc : Nat
  vault : Nat
  principal : Nat
deriving DecidableEq

/-- Storage of the `BeliefStake` contract. -/
structure Ledger where
  usdc : Nat
  yieldStrategy : Nat
  treasury : Nat
  owner : Nat
  stakes : Nat → Nat → StakeInfo
  totalStaked : Nat → Nat
  stakerCount : Nat → Nat
  totalPrincipal : Nat

/-- Combined world: token balances/allowances (indexed first by token
address, then holder / owner-spender), the ledger, and the deployed
strategy contracts (`none` at an address with no strategy contract). -/
structure World where
  bal : Nat → Nat → Nat
  allow : Nat → Nat → Nat → Nat
  ledgerAddr : Nat
  ledger : Ledger
  strategies : Nat → Option Strategy

/-- Events emitted by the ledger. -/
inductive Event where
  | Staked (attestationUID staker amount timestamp : Nat)
  | Unstaked (attestationUID staker amount : Nat)
  | StrategyMigrated (oldStrategy newStrategy amount : Nat)
  | YieldHarvested (amount treasury : Nat)
  | TreasuryUpdated (oldTreasury newTreasury : Nat)
deriving DecidableEq

/-- Fixed stake amount: $2 USDC with 6 decimals (`STAKE_AMOUNT`). -/
def STAKE_AMOUNT : Nat := 2000000

/-- Point update of a one-argument map. -/
def upd (f : Nat → Nat) (a v : Nat) : Nat → Nat :=
  fun x => if x = a then v else f x

/-- Point update of a two-argument map. -/
def upd2 (f : Nat → Nat → Nat) (a b : Nat) (v : Nat) : Nat → Nat → Nat :=
  fun x y => if x = a ∧ y = b then v else f x y

/-- Point update of a three-argument map. -/
def upd3 (f : Nat → Nat → Nat → Nat) (a b c : Nat) (v : Nat) : Nat → Nat → Nat → Nat :=
  fun x y z => if x = a ∧ y = b ∧ z = c then v else f x y z

/-- Point update of the stakes map. -/
def updStakes (f : Nat → Nat → StakeInfo) (a b : Nat) (v : StakeInfo) : Nat → Nat → StakeInfo :=
  fun x y => if x = a ∧ y = b then v else f x y

/-- Point update of the deployed-strategies map. -/
def updStrat (f : Nat → Option Strategy) (a : Nat) (v : Strategy) : Nat → Option Strategy :=
  fun x => if x = a then some v else f x

/-- Checked `uint256` subtraction: Solidity 0.8 reverts on underflow. -/
def csub (a b : Nat) : Except Err Nat :=
  if b ≤ a then .ok (a - b) else .error .Underflow

/-- Balance table after moving `amt` of token `t` from `s` to `r`
(subtract at the sender, then add at the receiver). -/
def tfrBal (bal : Nat → Nat → Nat) (t s r amt : Nat) : Nat → Nat → Nat :=
  upd2 (upd2 bal t s (bal t s - amt)) t r (upd2 bal t s (bal t s - amt) t r + amt)

/-- ERC20 `transfer`: fails iff the sender's balance is insufficient
(OpenZeppelin `_transfer` through `SafeERC20`). -/
def erc20transfer (w : World) (t s r amt : Nat) : Except Err World :=
  if amt ≤ w.bal t s then
    .ok { w with bal := tfrBal w.bal t s r amt }
  else .error .ERC20Failure

/-- ERC20 `transferFrom` by `spender` moving `amt` from `s` to `r` on token
`t`: spends allowance, then transfers. -/
def erc20transferFrom (w : World) (t spender s r amt : Nat) : Except Err World :=
  if amt ≤ w.allow t s spender then
    match erc20transfer w t s r amt with
    | .error e => .error e
    | .ok w₁ => .ok { w₁ with allow := upd3 w.allow t s spender (w.allow t s spender - amt) }
  else .error .ERC20Failure

/-- ERC20 `approve` / `forceApprove`: sets the allowance. -/
def erc20approve (w : World) (t o sp amt : Nat) : World :=
  { w with allow := upd3 w.allow t o sp amt }

/-- `NullYieldStrategy.deposit(amount)`: only the bound vault may call;
pulls `amount` of the strategy's token from the caller and increases
`_principal` by exactly `amount`. -/
def NullStrategy.deposit (w : World) (a caller amount : Nat) : Except Err World :=
  match w.strategies a with
  | none => .error .NoContract
  | some st =>
    if caller = st.vault then
      match erc20transferFrom w st.usdc a caller a amount with
      | .error e => .error e
      | .ok w₁ =>
        .ok { w₁ with strategies := updStrat w₁.strategies a { st with principal := st.principal + amount } }
    else .error .OnlyVault

/-- `NullYieldStrategy.withdraw(amount)`: only the bound vault; reverts with
`InsufficientBalance` when `amount > _principal`; decreases `_principal` and
transfers `amount` back to the caller. -/
def NullStrategy.withdraw (w : World) (a caller amount : Nat) : Except Err World :=
  match w.strategies a with
  | none => .error .NoContract
  | some st =>
    if caller = st.vault then
      if amount ≤ st.principal then
        let w₁ := { w with strategies := updStrat w.strategies a { st with principal := st.principal - amount } }
        erc20transfer w₁ st.usdc a caller amount
      else .error .InsufficientBalance
    else .error .OnlyVault

/-- `NullYieldStrategy.withdrawAll()`: only the bound vault; returns the
tracked `_principal` (note: not the full held balance), zeroes `_principal`,
and transfers that amount to the caller. -/
def NullStrategy.withdrawAll (w : World) (a caller : Nat) : Except Err (World × Nat) :=
  match w.strategies a with
  | none => .error .NoContract
  | some st =>
    if caller = st.vault then
      let amount := st.principal
      let w₁ := { w with strategies := updStrat w.strategies a { st with principal := 0 } }
      match erc20transfer w₁ st.usdc a caller amount with
      | .error e => .error e
      | .ok w₂ => .ok (w₂, amount)
    else .error .OnlyVault

/-- `NullYieldStrategy.harvestYield(address)`: a `pure` function with no
vault gate; the null strategy generates no yield and returns `0` for any
caller, moving nothing. -/
def NullStrategy.harvestYield (w : World) (a caller recipient : Nat) : Except Err (World × Nat) :=
  match w.strategies a with
  | none => .error .NoContract
  | some _ => .ok (w, 0)

/-- `NullYieldStrategy.rescueTokens(token, to)` (owner-only at the Solidity
level; the owner check is outside the modelled state so the function takes the
call as already authorized): for the bound token, only the balance in excess
of `_principal` moves; for any other token the full balance moves. -/
def NullStrategy.rescueTokens (w : World) (a token dst : Nat) : Except Err World :=
  match w.strategies a with
  | none => .error .NoContract
  | some st =>
    if dst = 0 then .error .InvalidAddress
    else if token = st.usdc then
      let balance := w.bal st.usdc a
      if st.principal < balance then
        erc20transfer w st.usdc a dst (balance - st.principal)
      else .ok w
    else
      let amount := w.bal token a
      if 0 < amount then erc20transfer w token a dst amount else .ok w

/-- The `principal()` view of the active strategy (0 if no contract). -/
def activePrincipal (w : World) : Nat :=
  match w.strategies w.ledger.yieldStrategy with
  | some st => st.principal
  | none => 0

/-- `BeliefStake.stake(attestationUID)`: zero-UID and double-stake checks,
pull `STAKE_AMOUNT` from the caller, approve and deposit it into the active
strategy, then write the record and bump the three counters. -/
def BeliefStake.stake (w : World) (caller uid now : Nat) : Except Err (World × List Event) :=
  if uid = 0 then .error .InvalidAttestationUID
  else if (w.ledger.stakes uid caller).amount ≠ 0 then .error .AlreadyStaked
  else
    match erc20transferFrom w w.ledger.usdc w.ledgerAddr caller w.ledgerAddr STAKE_AMOUNT with
    | .error e => .error e
    | .ok w₁ =>
      let w₂ := erc20approve w₁ w₁.ledger.usdc w₁.ledgerAddr w₁.ledger.yieldStrategy STAKE_AMOUNT
      match NullStrategy.deposit w₂ w₂.ledger.yieldStrategy w₂.ledgerAddr STAKE_AMOUNT with
      | .error e => .error e
      | .ok w₃ =>
        .ok ({ w₃ with ledger := { w₃.ledger with
                stakes := updStakes w₃.ledger.stakes uid caller ⟨STAKE_AMOUNT, now⟩,
                totalStaked := upd w₃.ledger.totalStaked uid (w₃.ledger.totalStaked uid + STAKE_AMOUNT),
                stakerCount := upd w₃.ledger.stakerCount uid (w₃.ledger.stakerCount uid + 1),
                totalPrincipal := w₃.ledger.totalPrincipal + STAKE_AMOUNT } },
          [Event.Staked uid caller STAKE_AMOUNT now])

/-- The bookkeeping prefix of `unstake`: clear the record and decrement
`totalStaked`, `stakerCount` and `totalPrincipal` (all checked), touching no
token balance and no strategy.  This is exactly the code before the first
external call. -/
def BeliefStake.unstakeBook (w : World) (caller uid : Nat) : Except Err (World × Nat) :=
  let info := w.ledger.stakes uid caller
  if info.amount = 0 then .error .NoStakeFound
  else
    let amount := info.amount
    match csub (w.ledger.totalStaked uid) amount with
    | .error e => .error e
    | .ok ts =>
      match csub (w.ledger.stakerCount uid) 1 with
      | .error e => .error e
      | .ok sc =>
        match csub w.ledger.totalPrincipal amount with
        | .error e => .error e
        | .ok tp =>
          .ok ({ w with ledger := { w.ledger with
                  stakes := updStakes w.ledger.stakes uid caller ⟨0, 0⟩,
                  totalStaked := upd w.ledger.totalStaked uid ts,
                  stakerCount := upd w.ledger.stakerCount uid sc,
                  totalPrincipal := tp } }, amount)

/-- The external-call suffix of `unstake`: withdraw from the active strategy,
then transfer the amount back to the caller. -/
def BeliefStake.unstakeExternal (w₁ : World) (caller uid amount : Nat) : Except Err (World × List Event) :=
  match NullStrategy.withdraw w₁ w₁.ledger.yieldStrategy w₁.ledgerAddr amount with
  | .error e => .error e
  | .ok w₂ =>
    match erc20transfer w₂ w₂.ledger.usdc w₂.ledgerAddr caller amount with
    | .error e => .error e
    | .ok w₃ => .ok (w₃, [Event.Unstaked uid caller amount])

/-- `BeliefStake.unstake(attestationUID)`: record check, then bookkeeping
(strictly before the external calls), then strategy withdraw and transfer
back to the caller. -/
def BeliefStake.unstake (w : World) (caller uid : Nat) : Except Err (World × List Event) :=
  match BeliefStake.unstakeBook w caller uid with
  | .error e => .error e
  | .ok (w₁, amount) => BeliefStake.unstakeExternal w₁ caller uid amount

/-- The tail of `migrateYieldStrategy` after the `withdrawAll()` call on the
old strategy: repoint `yieldStrategy` to the new strategy, approve and deposit
exactly `totalPrincipal` into it, compute the (checked) excess
`withdrawn - totalPrincipal` and forward any positive excess to the treasury.
Taking `withdrawn` as a parameter lets the behavior of an arbitrary old
backend's `withdrawAll` be analyzed. -/
def BeliefStake.migrateAfterWithdrawAll (w : World) (oldAddr newAddr withdrawn : Nat) :
    Except Err (World × List Event) :=
  let w₁ := { w with ledger := { w.ledger with yieldStrategy := newAddr } }
  let w₂ := erc20approve w₁ w₁.ledger.usdc w₁.ledgerAddr newAddr w₁.ledger.totalPrincipal
  match NullStrategy.deposit w₂ newAddr w₂.ledgerAddr w₂.ledger.totalPrincipal with
  | .error e => .error e
  | .ok w₃ =>
    match csub withdrawn w₃.ledger.totalPrincipal with
    | .error e => .error e
    | .ok excess =>
      if 0 < excess then
        match erc20transfer w₃ w₃.ledger.usdc w₃.ledgerAddr w₃.ledger.treasury excess with
        | .error e => .error e
        | .ok w₄ =>
          .ok (w₄, [Event.YieldHarvested excess w₄.ledger.treasury,
                    Event.StrategyMigrated oldAddr newAddr w₄.ledger.totalPrincipal])
      else
        .ok (w₃, [Event.StrategyMigrated oldAddr newAddr w₃.ledger.totalPrincipal])

/-- `BeliefStake.migrateYieldStrategy(newStrategy)`: owner-only; null-address
and wiring checks on the new strategy; `withdrawAll()` on the old strategy;
then the migration tail. -/
def BeliefStake.migrateYieldStrategy (w : World) (caller newAddr : Nat) :
    Except Err (World × List Event) :=
  if caller ≠ w.ledger.owner then .error .NotOwner
  else if newAddr = 0 then .error .InvalidAddress
  else
    match w.strategies newAddr with
    | none => .error .NoContract
    | some nst =>
      if nst.vault ≠ w.ledgerAddr then .error .StrategyMismatch
      else if nst.usdc ≠ w.ledger.usdc then .error .StrategyMismatch
      else
        let oldAddr := w.ledger.yieldStrategy
        match NullStrategy.withdrawAll w oldAddr w.ledgerAddr with
        | .error e => .error e
        | .ok (w₁, withdrawn) => BeliefStake.migrateAfterWithdrawAll w₁ oldAddr newAddr withdrawn

/-- `BeliefStake.harvestYield()`: callable by anyone; forwards the active
strategy's yield to the treasury (always 0 for the null strategy) and emits
only on a nonzero amount. -/
def BeliefStake.harvestYield (w : World) (caller : Nat) : Except Err (World × List Event) :=
  match NullStrategy.harvestYield w w.ledger.yieldStrategy w.ledgerAddr w.ledger.treasury with
  | .error e => .error e
  | .ok (w₁, harvested) =>
    if 0 < harvested then .ok (w₁, [Event.YieldHarvested harvested w₁.ledger.treasury])
    else .ok (w₁, [])

/-- `BeliefStake.setTreasury(newTreasury)`: owner-only, rejects the zero
address. -/
def BeliefStake.setTreasury (w : World) (caller newTreasury : Nat) : Except Err (World × List Event) :=
  if caller ≠ w.ledger.owner then .error .NotOwner
  else if newTreasury = 0 then .error .InvalidAddress
  else .ok ({ w with ledger := { w.ledger with treasury := newTreasury } },
            [Event.TreasuryUpdated w.ledger.treasury newTreasury])

/-- `BeliefStake.rescueTokens(token, to)`: owner-only.  For the staking token
it transfers the ledger's whole direct balance when positive; for any other
token, the full balance unconditionally. -/
def BeliefStake.rescueTokens (w : World) (caller token dst : Nat) : Except Err World :=
  if caller ≠ w.ledger.owner then .error .NotOwner
  else if token = w.ledger.usdc then
    let balance := w.bal w.ledger.usdc w.ledgerAddr
    if 0 < balance then erc20transfer w w.ledger.usdc w.ledgerAddr dst balance
    else .ok w
  else
    erc20transfer w token w.ledgerAddr dst (w.bal token w.ledgerAddr)

/-- Constructor of a fresh `NullYieldStrategy` at address `a` (both
constructor arguments checked nonzero, `_principal` starts at 0). -/
def deployNullStrategy (w : World) (a usdcAddr vaultAddr : Nat) : Except Err World :=
  if usdcAddr = 0 then .error .InvalidAddress
  else if vaultAddr = 0 then .error .InvalidAddress
  else .ok { w with strategies := updStrat w.strategies a ⟨usdcAddr, vaultAddr, 0⟩ }

/-- The deployed system right after the two constructors ran (strategy first,
then the ledger, which checks the strategy's wiring): empty stake maps,
zero counters, the initial strategy active with `_principal = 0`.  Token
balances and allowances of external accounts are arbitrary. -/
def mkInit (usdcA ledgerA stratA treasuryA ownerA : Nat)
    (bal0 : Nat → Nat → Nat) (allow0 : Nat → Nat → Nat → Nat) : World :=
  { bal := bal0
    allow := allow0
    ledgerAddr := ledgerA
    ledger :=
      { usdc := usdcA, yieldStrategy := stratA, treasury := treasuryA, owner := ownerA,
        stakes := fun _ _ => ⟨0, 0⟩, totalStaked := fun _ => 0,
        stakerCount := fun _ => 0, totalPrincipal := 0 }
    strategies := fun x => if x = stratA then some ⟨usdcA, ledgerA, 0⟩ else none }

/-- Reachable world states: the freshly deployed system, closed under the
successful ledger entry points, strategy deployment, and environment actions
(token approvals and transfers by externally-owned accounts — never by the
ledger or a strategy contract, which move tokens only through their code). -/
inductive Reach : World → Prop where
  | init (usdcA ledgerA stratA treasuryA ownerA : Nat) (bal0 : Nat → Nat → Nat)
      (allow0 : Nat → Nat → Nat → Nat)
      (hu : usdcA ≠ 0) (hs : stratA ≠ 0) (ht : treasuryA ≠ 0) (hl : ledgerA ≠ 0)
      (hsl : stratA ≠ ledgerA) :
      Reach (mkInit usdcA ledgerA stratA treasuryA ownerA bal0 allow0)
  | stake {w w' : World} {caller uid now : Nat} {evs : List Event}
      (hw : Reach w) (h : BeliefStake.stake w caller uid now = .ok (w', evs))
      (hc : caller ≠ w.ledgerAddr) (hcs : w.strategies caller = none) : Reach w'
  | unstake {w w' : World} {caller uid : Nat} {evs : List Event}
      (hw : Reach w) (h : BeliefStake.unstake w caller uid = .ok (w', evs))
      (hc : caller ≠ w.ledgerAddr) (hcs : w.strategies caller = none) : Reach w'
  | migrate {w w' : World} {caller newAddr : Nat} {evs : List Event}
      (hw : Reach w) (h : BeliefStake.migrateYieldStrategy w caller newAddr = .ok (w', evs)) : Reach w'
  | harvest {w w' : World} {caller : Nat} {evs : List Event}
      (hw : Reach w) (h : BeliefStake.harvestYield w caller = .ok (w', evs)) : Reach w'
  | setTreasury {w w' : World} {caller newTreasury : Nat} {evs : List Event}
      (hw : Reach w) (h : BeliefStake.setTreasury w caller newTreasury = .ok (w', evs)) : Reach w'
  | rescue {w w' : World} {caller token dst : Nat}
      (hw : Reach w) (h : BeliefStake.rescueTokens w caller token dst = .ok w') : Reach w'
  | deploy {w w' : World} {a usdcAddr vaultAddr : Nat}
      (hw : Reach w) (h : deployNullStrategy w a usdcAddr vaultAddr = .ok w')
      (hfree : w.strategies a = none) (hna : a ≠ w.ledgerAddr) (h0 : a ≠ 0) : Reach w'
  | approve {w : World} {t o sp amt : Nat}
      (hw : Reach w) (ho : o ≠ w.ledgerAddr) (hos : w.strategies o = none) :
      Reach (erc20approve w t o sp amt)
  | transfer {w w' : World} {t s r amt : Nat}
      (hw : Reach w) (h : erc20transfer w t s r amt = .ok w')
      (hs : s ≠ w.ledgerAddr) (hss : w.strategies s = none) : Reach w'

/-! ## Concrete worlds and helper views used by the claim theorems and witnesses -/

/-- A concrete freshly deployed world used by the witnesses. -/
def W0c : World := mkInit 2 1 3 4 5 (fun t h => if t = 2 ∧ h = 7 then 10000000 else 0)
  (fun t o s => if t = 2 ∧ o = 7 ∧ s = 1 then 10000000 else 0)
/-- The world after depositor 7 stakes on claim 99 at time 11, starting from
the concrete deployment `W0c`. -/
def W1c : World :=
  match BeliefStake.stake W0c 7 99 11 with
  | .ok (w, _) => w
  | .error _ => W0c
/-- Concrete pre-migration world for the C2 witness: ledger holds 50 units
(30 principal withdrawn from the old backend at address 3 plus 20 yield), a
fresh correctly wired strategy at address 6. -/
def W2c : World :=
  { bal := fun t h => if t = 2 ∧ h = 1 then 50 else 0
    allow := fun _ _ _ => 0
    ledgerAddr := 1
    ledger :=
      { usdc := 2, yieldStrategy := 3, treasury := 4, owner := 5,
        stakes := fun _ _ => ⟨0, 0⟩, totalStaked := fun _ => 0,
        stakerCount := fun _ => 0, totalPrincipal := 30 }
    strategies := fun x => if x = 6 then some ⟨2, 1, 0⟩ else none }
/-- The `principal()` view of the strategy deployed at `a` (0 if none). -/
def strategyPrincipal (w : World) (a : Nat) : Nat :=
  match w.strategies a with
  | some st => st.principal
  | none => 0
/-- The part of the ledger's direct balance needed to back `totalPrincipal`,
i.e. whatever of `totalPrincipal` the active backend does not itself hold. -/
def requiredBacking (w : World) : Nat :=
  w.ledger.totalPrincipal - activePrincipal w
/-- World used by the C4/C9 counterexamples: the strategy at address 3
(vault 1, token 2) tracks `_principal = 10` but holds a balance of 15. -/
def W4c : World :=
  { bal := fun t h => if t = 2 ∧ h = 3 then 15 else 0
    allow := fun _ _ _ => 0
    ledgerAddr := 1
    ledger :=
      { usdc := 2, yieldStrategy := 3, treasury := 4, owner := 5,
        stakes := fun _ _ => ⟨0, 0⟩, totalStaked := fun _ => 0,
        stakerCount := fun _ => 0, totalPrincipal := 10 }
    strategies := fun x => if x = 3 then some ⟨2, 1, 10⟩ else none }
/-- The world left behind by `withdrawAll` on `W4c`. -/
def W4cAfter : World :=
  match NullStrategy.withdrawAll W4c 3 1 with
  | .ok (w, _) => w
  | .error _ => W4c
/-- World for the C7 witness: ledger owner 5; a strategy at address 6 whose
vault (9) is not the ledger, and one at address 8 with the right vault but
the wrong token (7). -/
def W7c : World :=
  { bal := fun _ _ => 0
    allow := fun _ _ _ => 0
    ledgerAddr := 1
    ledger :=
      { usdc := 2, yieldStrategy := 3, treasury := 4, owner := 5,
        stakes := fun _ _ => ⟨0, 0⟩, totalStaked := fun _ => 0,
        stakerCount := fun _ => 0, totalPrincipal := 0 }
    strategies := fun x =>
      if x = 6 then some ⟨2, 9, 0⟩ else if x = 8 then some ⟨7, 1, 0⟩ else none }
/-- The bookkeeping-complete intermediate world of `unstake` on `W1c`. -/
def W1b : World :=
  match BeliefStake.unstakeBook W1c 7 99 with
  | .ok (w, _) => w
  | .error _ => W1c
/-- Inductive invariant of reachable worlds.  The two sum clauses and the
count clause use an existential finite cover of the (finite) support of the
respective map. -/
structure LedgerInv (w : World) : Prop where
  sumClaims : ∃ S : Finset Nat, (∀ c, w.ledger.totalStaked c ≠ 0 → c ∈ S) ∧
      w.ledger.totalPrincipal = ∑ c in S, w.ledger.totalStaked c
  sumStakes : ∀ c, ∃ D : Finset Nat, (∀ d, (w.ledger.stakes c d).amount ≠ 0 → d ∈ D) ∧
      w.ledger.totalStaked c = ∑ d in D, (w.ledger.stakes c d).amount
  countStakes : ∀ c, ∃ D : Finset Nat, (∀ d, (w.ledger.stakes c d).amount ≠ 0 → d ∈ D) ∧
      (D.filter (fun d => (w.ledger.stakes c d).amount ≠ 0)).card ≤ w.ledger.stakerCount c
  fixedAmount : ∀ c d, (w.ledger.stakes c d).amount ≠ 0 →
      (w.ledger.stakes c d).amount = STAKE_AMOUNT
  active : ∃ st, w.strategies w.ledger.yieldStrategy = some st ∧
      st.vault = w.ledgerAddr ∧ st.usdc = w.ledger.usdc ∧
      st.principal = w.ledger.totalPrincipal ∧
      st.principal ≤ w.bal w.ledger.usdc w.ledger.yieldStrategy
  inactive : ∀ a st, w.strategies a = some st → a ≠ w.ledger.yieldStrategy →
      st.principal = 0
  ledgerNotStrategy : w.strategies w.ledgerAddr = none

/-- Balance table after sweeping the ledger's whole direct balance of token
`t` to `dst`. -/
def sweepBal (w : World) (t dst : Nat) : Nat → Nat → Nat :=
  tfrBal w.bal t w.ledgerAddr dst (w.bal t w.ledgerAddr)

/-! ## Basic lemmas about map updates and the token primitives -/

theorem upd_same (f : Nat → Nat) (a v : Nat) : upd f a v a = v := by
  simp [upd]

theorem upd_ne (f : Nat → Nat) {x a : Nat} (h : x ≠ a) (v : Nat) : upd f a v x = f x := by
  simp [upd, h]

theorem upd2_same (f : Nat → Nat → Nat) (a b v : Nat) : upd2 f a b v a b = v := by
  simp [upd2]

theorem upd2_ne (f : Nat → Nat → Nat) {x y a b : Nat} (h : x ≠ a ∨ y ≠ b) (v : Nat) :
    upd2 f a b v x y = f x y := by
  rcases h with h | h <;> simp [upd2, h] <;> intro h' <;> exact absurd h' h

theorem upd3_same (f : Nat → Nat → Nat → Nat) (a b c v : Nat) : upd3 f a b c v a b c = v := by
  simp [upd3]

theorem upd3_ne (f : Nat → Nat → Nat → Nat) {x y z a b c : Nat}
    (h : x ≠ a ∨ y ≠ b ∨ z ≠ c) (v : Nat) : upd3 f a b c v x y z = f x y z := by
  rcases h with h | h | h <;> simp [upd3, h] <;> intros <;> simp_all

theorem updStakes_same (f : Nat → Nat → StakeInfo) (a b : Nat) (v : StakeInfo) :
    updStakes f a b v a b = v := by
  simp [updStakes]

theorem updStakes_ne (f : Nat → Nat → StakeInfo) {x y a b : Nat} (h : x ≠ a ∨ y ≠ b)
    (v : StakeInfo) : updStakes f a b v x y = f x y := by
  rcases h with h | h <;> simp [updStakes, h] <;> intro h' <;> exact absurd h' h

theorem updStrat_same (f : Nat → Option Strategy) (a : Nat) (v : Strategy) :
    updStrat f a v a = some v := by
  simp [updStrat]

theorem updStrat_ne (f : Nat → Option Strategy) {x a : Nat} (h : x ≠ a) (v : Strategy) :
    updStrat f a v x = f x := by
  simp [updStrat, h]

theorem tfrBal_other (bal : Nat → Nat → Nat) {t s r : Nat} (amt : Nat) {x y : Nat}
    (h : x ≠ t ∨ (y ≠ s ∧ y ≠ r)) : tfrBal bal t s r amt x y = bal x y := by
  rcases h with h | ⟨h1, h2⟩
  · rw [tfrBal, upd2_ne _ (Or.inl h), upd2_ne _ (Or.inl h)]
  · rw [tfrBal, upd2_ne _ (Or.inr h2), upd2_ne _ (Or.inr h1)]

theorem tfrBal_sender (bal : Nat → Nat → Nat) {t s r : Nat} (amt : Nat) (h : s ≠ r) :
    tfrBal bal t s r amt t s = bal t s - amt := by
  rw [tfrBal, upd2_ne _ (Or.inr h), upd2_same]

theorem tfrBal_receiver (bal : Nat → Nat → Nat) {t s r : Nat} (amt : Nat) (h : s ≠ r) :
    tfrBal bal t s r amt t r = bal t r + amt := by
  rw [tfrBal, upd2_same, upd2_ne _ (Or.inr (Ne.symm h))]

theorem tfrBal_self (bal : Nat → Nat → Nat) {t s : Nat} {amt : Nat} (h : amt ≤ bal t s) :
    tfrBal bal t s s amt t s = bal t s := by
  rw [tfrBal, upd2_same, upd2_same]
  omega

theorem erc20transfer_ok_iff {w : World} {t s r amt : Nat} {w' : World} :
    erc20transfer w t s r amt = .ok w' ↔
      amt ≤ w.bal t s ∧ w' = { w with bal := tfrBal w.bal t s r amt } := by
  by_cases h : amt ≤ w.bal t s
  · simp [erc20transfer, h, eq_comm]
  · simp [erc20transfer, h]

theorem erc20transferFrom_ok_iff {w : World} {t spender s r amt : Nat} {w' : World} :
    erc20transferFrom w t spender s r amt = .ok w' ↔
      amt ≤ w.allow t s spender ∧ amt ≤ w.bal t s ∧
      w' = { w with bal := tfrBal w.bal t s r amt,
                    allow := upd3 w.allow t s spender (w.allow t s spender - amt) } := by
  by_cases h1 : amt ≤ w.allow t s spender
  · by_cases h2 : amt ≤ w.bal t s
    · simp [erc20transferFrom, erc20transfer, h1, h2, eq_comm]
    · simp [erc20transferFrom, erc20transfer, h1, h2]
  · simp [erc20transferFrom, h1]

theorem tfrBal_le (bal : Nat → Nat → Nat) {t s r amt x y : Nat} (hy : y ≠ s) :
    bal x y ≤ tfrBal bal t s r amt x y := by
  by_cases hx : x = t
  · subst hx
    by_cases hyr : y = r
    · subst hyr
      rw [tfrBal_receiver bal amt (fun h => hy h.symm)]
      omega
    · rw [tfrBal_other bal amt (Or.inr ⟨hy, hyr⟩)]
  · rw [tfrBal_other bal amt (Or.inl hx)]

/-! ## Finite-sum helpers for the aggregate-counter invariants -/

theorem sum_cover_congr {f : Nat → Nat} {S T : Finset Nat}
    (hS : ∀ c, f c ≠ 0 → c ∈ S) (hT : ∀ c, f c ≠ 0 → c ∈ T) :
    ∑ c in S, f c = ∑ c in T, f c := by
  have h1 : ∑ c in S ∩ T, f c = ∑ c in S, f c := by
    apply Finset.sum_subset Finset.inter_subset_left
    intro x hx hnx
    by_contra hne
    exact hnx (Finset.mem_inter.mpr ⟨hx, hT x hne⟩)
  have h2 : ∑ c in S ∩ T, f c = ∑ c in T, f c := by
    apply Finset.sum_subset Finset.inter_subset_right
    intro x hx hnx
    by_contra hne
    exact hnx (Finset.mem_inter.mpr ⟨hS x hne, hx⟩)
  omega

theorem sum_point_swap {f g : Nat → Nat} {S : Finset Nat} {c : Nat}
    (hc : c ∈ S) (hagree : ∀ x ∈ S, x ≠ c → g x = f x) :
    (∑ x in S, g x) + f c = (∑ x in S, f x) + g c := by
  have h1 := Finset.add_sum_erase S g hc
  have h2 := Finset.add_sum_erase S f hc
  have h3 : ∑ x in S.erase c, g x = ∑ x in S.erase c, f x := by
    apply Finset.sum_congr rfl
    intro x hx
    exact hagree x (Finset.mem_of_mem_erase hx) (Finset.ne_of_mem_erase hx)
  omega

/-! ## The ledger-wide invariant -/

theorem ledgerInv_mkInit (usdcA ledgerA stratA treasuryA ownerA : Nat)
    (bal0 : Nat → Nat → Nat) (allow0 : Nat → Nat → Nat → Nat)
    (hsl : stratA ≠ ledgerA) :
    LedgerInv (mkInit usdcA ledgerA stratA treasuryA ownerA bal0 allow0) := by
  refine ⟨⟨∅, ?_, ?_⟩, ?_, ?_, ?_, ?_, ?_, ?_⟩
  · intro c hc
    simp [mkInit] at hc
  · simp [mkInit]
  · intro c
    exact ⟨∅, fun d hd => by simp [mkInit] at hd, by simp [mkInit]⟩
  · intro c
    exact ⟨∅, fun d hd => by simp [mkInit] at hd, by simp⟩
  · intro c d hcd
    simp [mkInit] at hcd
  · exact ⟨⟨usdcA, ledgerA, 0⟩, by simp [mkInit], rfl, rfl, rfl, by simp⟩
  · intro a st ha hne
    simp only [mkInit] at ha hne
    split at ha
    · cases ha
      rfl
    · cases ha
  · have : ledgerA ≠ stratA := fun h => hsl h.symm
    simp [mkInit, this]

/-! ## Characterization of the simple operations -/

theorem harvestYield_ok {w w' : World} {caller : Nat} {evs : List Event}
    (h : BeliefStake.harvestYield w caller = .ok (w', evs)) : w' = w ∧ evs = [] := by
  unfold BeliefStake.harvestYield NullStrategy.harvestYield at h
  cases hs : w.strategies w.ledger.yieldStrategy <;> rw [hs] at h
  · cases h
  · simp at h
    exact ⟨h.1.symm, h.2⟩

theorem setTreasury_ok {w w' : World} {caller newTreasury : Nat} {evs : List Event}
    (h : BeliefStake.setTreasury w caller newTreasury = .ok (w', evs)) :
    w' = { w with ledger := { w.ledger with treasury := newTreasury } } := by
  unfold BeliefStake.setTreasury at h
  split at h
  · cases h
  · split at h
    · cases h
    · cases h
      rfl

theorem deployNullStrategy_ok {w w' : World} {a usdcAddr vaultAddr : Nat}
    (h : deployNullStrategy w a usdcAddr vaultAddr = .ok w') :
    w' = { w with strategies := updStrat w.strategies a ⟨usdcAddr, vaultAddr, 0⟩ } := by
  unfold deployNullStrategy at h
  split at h
  · cases h
  · split at h
    · cases h
    · cases h
      rfl

theorem rescueTokens_ok {w w' : World} {caller token dst : Nat}
    (h : BeliefStake.rescueTokens w caller token dst = .ok w') :
    w'.ledger = w.ledger ∧ w'.strategies = w.strategies ∧ w'.ledgerAddr = w.ledgerAddr ∧
    ∀ t' y, y ≠ w.ledgerAddr → w.bal t' y ≤ w'.bal t' y := by
  unfold BeliefStake.rescueTokens at h
  simp only [] at h
  split at h
  · cases h
  · split at h
    · split at h
      · rw [erc20transfer_ok_iff] at h
        obtain ⟨-, rfl⟩ := h
        exact ⟨rfl, rfl, rfl, fun t' y hy => tfrBal_le w.bal hy⟩
      · cases h
        exact ⟨rfl, rfl, rfl, fun t' y hy => Nat.le_refl _⟩
    · rw [erc20transfer_ok_iff] at h
      obtain ⟨-, rfl⟩ := h
      exact ⟨rfl, rfl, rfl, fun t' y hy => tfrBal_le w.bal hy⟩

/-! ## Invariant preservation: the simple steps -/

theorem ledgerInv_approve {w : World} (hI : LedgerInv w) (t o sp amt : Nat) :
    LedgerInv (erc20approve w t o sp amt) := by
  obtain ⟨h1, h2, h3, h4, h5, h6, h7⟩ := hI
  exact ⟨h1, h2, h3, h4, h5, h6, h7⟩

theorem ledgerInv_envTransfer {w w' : World} {t s r amt : Nat} (hI : LedgerInv w)
    (h : erc20transfer w t s r amt = .ok w')
    (hs : s ≠ w.ledgerAddr) (hss : w.strategies s = none) : LedgerInv w' := by
  rw [erc20transfer_ok_iff] at h
  obtain ⟨-, rfl⟩ := h
  obtain ⟨h1, h2, h3, h4, ⟨st, hst, hv, hu, hp, hb⟩, h6, h7⟩ := hI
  refine ⟨h1, h2, h3, h4, ⟨st, hst, hv, hu, hp, ?_⟩, h6, h7⟩
  have hys : w.ledger.yieldStrategy ≠ s := by
    intro he
    rw [he, hss] at hst
    cases hst
  exact le_trans hb (tfrBal_le w.bal hys)

theorem ledgerInv_deploy {w w' : World} {a usdcAddr vaultAddr : Nat} (hI : LedgerInv w)
    (h : deployNullStrategy w a usdcAddr vaultAddr = .ok w')
    (hfree : w.strategies a = none) (hna : a ≠ w.ledgerAddr) : LedgerInv w' := by
  obtain rfl := deployNullStrategy_ok h
  obtain ⟨h1, h2, h3, h4, ⟨st, hst, hv, hu, hp, hb⟩, h6, h7⟩ := hI
  have hya : w.ledger.yieldStrategy ≠ a := by
    intro he
    rw [he, hfree] at hst
    cases hst
  refine ⟨h1, h2, h3, h4, ⟨st, ?_, hv, hu, hp, hb⟩, ?_, ?_⟩
  · exact (updStrat_ne w.strategies hya _).trans hst
  · intro b stb hb' hbne
    by_cases hba : b = a
    · subst hba
      have : some (⟨usdcAddr, vaultAddr, 0⟩ : Strategy) = some stb :=
        (updStrat_same w.strategies b _).symm.trans hb'
      cases this
      rfl
    · exact h6 b stb ((updStrat_ne w.strategies hba _).symm.trans hb') hbne
  · exact (updStrat_ne w.strategies (fun he => hna he.symm) _).trans h7

theorem ledgerInv_setTreasury {w w' : World} {caller newTreasury : Nat} {evs : List Event}
    (hI : LedgerInv w) (h : BeliefStake.setTreasury w caller newTreasury = .ok (w', evs)) :
    LedgerInv w' := by
  obtain rfl := setTreasury_ok h
  obtain ⟨h1, h2, h3, h4, h5, h6, h7⟩ := hI
  exact ⟨h1, h2, h3, h4, h5, h6, h7⟩

theorem ledgerInv_harvest {w w' : World} {caller : Nat} {evs : List Event}
    (hI : LedgerInv w) (h : BeliefStake.harvestYield w caller = .ok (w', evs)) :
    LedgerInv w' := by
  obtain ⟨rfl, -⟩ := harvestYield_ok h
  exact hI

theorem ledgerInv_rescue {w w' : World} {caller token dst : Nat}
    (hI : LedgerInv w) (h : BeliefStake.rescueTokens w caller token dst = .ok w') :
    LedgerInv w' := by
  obtain ⟨hl, hs, hla, hb⟩ := rescueTokens_ok h
  obtain ⟨h1, h2, h3, h4, ⟨st, hst, hv, hu, hp, hbal⟩, h6, h7⟩ := hI
  have hys : w.ledger.yieldStrategy ≠ w.ledgerAddr := by
    intro he
    rw [he, h7] at hst
    cases hst
  refine ⟨?_, ?_, ?_, ?_, ⟨st, ?_, ?_, ?_, ?_, ?_⟩, ?_, ?_⟩
  · rw [hl]
    exact h1
  · rw [hl]
    exact h2
  · rw [hl]
    exact h3
  · rw [hl]
    exact h4
  · rw [hs, hl]
    exact hst
  · rw [hla]
    exact hv
  · rw [hl]
    exact hu
  · rw [hl]
    exact hp
  · rw [hl]
    exact le_trans hbal (hb _ _ hys)
  · intro a sta ha hane
    rw [hs] at ha
    rw [hl] at hane
    exact h6 a sta ha hane
  · rw [hs, hla]
    exact h7

/-! ## Characterization of the strategy primitives -/

theorem deposit_ok_iff {w : World} {a caller amount : Nat} {w' : World} :
    NullStrategy.deposit w a caller amount = .ok w' ↔
      ∃ st, w.strategies a = some st ∧ caller = st.vault ∧
        amount ≤ w.allow st.usdc caller a ∧ amount ≤ w.bal st.usdc caller ∧
        w' = { w with bal := tfrBal w.bal st.usdc caller a amount,
                      allow := upd3 w.allow st.usdc caller a (w.allow st.usdc caller a - amount),
                      strategies := updStrat w.strategies a
                        { st with principal := st.principal + amount } } := by
  constructor
  · intro h
    unfold NullStrategy.deposit at h
    cases hs : w.strategies a
    · simp only [hs] at h
      cases h
    · rename_i st
      simp only [hs] at h
      split at h
      · rename_i hc
        cases ht : erc20transferFrom w st.usdc a caller a amount
        · simp only [ht] at h
          cases h
        · simp only [ht] at h
          obtain ⟨ha, hb, rfl⟩ := erc20transferFrom_ok_iff.mp ht
          cases h
          exact ⟨st, rfl, hc, ha, hb, rfl⟩
      · cases h
  · rintro ⟨st, hs, hc, ha, hb, rfl⟩
    unfold NullStrategy.deposit
    simp only [hs]
    rw [if_pos hc]
    have ht : erc20transferFrom w st.usdc a caller a amount =
        .ok { w with bal := tfrBal w.bal st.usdc caller a amount,
                     allow := upd3 w.allow st.usdc caller a (w.allow st.usdc caller a - amount) } :=
      erc20transferFrom_ok_iff.mpr ⟨ha, hb, rfl⟩
    simp only [ht]

theorem withdraw_ok_iff {w : World} {a caller amount : Nat} {w' : World} :
    NullStrategy.withdraw w a caller amount = .ok w' ↔
      ∃ st, w.strategies a = some st ∧ caller = st.vault ∧
        amount ≤ st.principal ∧ amount ≤ w.bal st.usdc a ∧
        w' = { w with bal := tfrBal w.bal st.usdc a caller amount,
                      strategies := updStrat w.strategies a
                        { st with principal := st.principal - amount } } := by
  constructor
  · intro h
    unfold NullStrategy.withdraw at h
    cases hs : w.strategies a
    · simp only [hs] at h
      cases h
    · rename_i st
      simp only [hs] at h
      split at h
      · rename_i hc
        split at h
        · rename_i hle
          obtain ⟨hb, rfl⟩ := erc20transfer_ok_iff.mp h
          exact ⟨st, rfl, hc, hle, hb, rfl⟩
        · cases h
      · cases h
  · rintro ⟨st, hs, hc, hle, hb, rfl⟩
    unfold NullStrategy.withdraw
    simp only [hs]
    rw [if_pos hc, if_pos hle]
    exact erc20transfer_ok_iff.mpr ⟨hb, rfl⟩

theorem withdrawAll_ok_iff {w : World} {a caller : Nat} {w' : World} {amt : Nat} :
    NullStrategy.withdrawAll w a caller = .ok (w', amt) ↔
      ∃ st, w.strategies a = some st ∧ caller = st.vault ∧
        st.principal ≤ w.bal st.usdc a ∧ amt = st.principal ∧
        w' = { w with bal := tfrBal w.bal st.usdc a caller st.principal,
                      strategies := updStrat w.strategies a { st with principal := 0 } } := by
  constructor
  · intro h
    unfold NullStrategy.withdrawAll at h
    cases hs : w.strategies a
    · simp only [hs] at h
      cases h
    · rename_i st
      simp only [hs] at h
      split at h
      · rename_i hc
        cases ht : (erc20transfer { w with strategies := updStrat w.strategies a { st with
            principal := 0 } } st.usdc a caller st.principal)
        · simp only [ht] at h
          cases h
        · simp only [ht] at h
          obtain ⟨hb, rfl⟩ := erc20transfer_ok_iff.mp ht
          cases h
          exact ⟨st, rfl, hc, hb, rfl, rfl⟩
      · cases h
  · rintro ⟨st, hs, hc, hb, rfl, rfl⟩
    unfold NullStrategy.withdrawAll
    simp only [hs]
    rw [if_pos hc]
    have ht : erc20transfer { w with strategies := updStrat w.strategies a { st with
        principal := 0 } } st.usdc a caller st.principal =
        .ok { w with bal := tfrBal w.bal st.usdc a caller st.principal,
                     strategies := updStrat w.strategies a { st with principal := 0 } } :=
      erc20transfer_ok_iff.mpr ⟨hb, rfl⟩
    simp only [ht]

/-! ## Cover/sum/card bookkeeping helpers -/

theorem cover_insert {f g : Nat → Nat} {S : Finset Nat} {c : Nat}
    (hcov : ∀ x, f x ≠ 0 → x ∈ S) (hagree : ∀ x, x ≠ c → g x = f x) :
    ∀ x, g x ≠ 0 → x ∈ insert c S := by
  intro x hx
  by_cases hxc : x = c
  · exact hxc ▸ Finset.mem_insert_self c S
  · exact Finset.mem_insert_of_mem (hcov x (by rw [hagree x hxc] at hx; exact hx))

theorem sum_insert_point_add {f g : Nat → Nat} {S : Finset Nat} {c k : Nat}
    (hcov : ∀ x, f x ≠ 0 → x ∈ S) (hg : g c = f c + k)
    (hagree : ∀ x, x ≠ c → g x = f x) :
    ∑ x in insert c S, g x = (∑ x in S, f x) + k := by
  have h1 : c ∈ insert c S := Finset.mem_insert_self c S
  have h2 := sum_point_swap h1 (fun x _ hx => hagree x hx)
  have h3 : ∑ x in insert c S, f x = ∑ x in S, f x := by
    by_cases hm : c ∈ S
    · rw [Finset.insert_eq_self.mpr hm]
    · rw [Finset.sum_insert hm]
      have hz : f c = 0 := by
        by_contra hne
        exact hm (hcov c hne)
      omega
  omega

theorem sum_point_sub {f g : Nat → Nat} {S : Finset Nat} {c k : Nat}
    (hcS : c ∈ S) (hg : g c + k = f c) (hagree : ∀ x, x ≠ c → g x = f x) :
    (∑ x in S, f x) = (∑ x in S, g x) + k := by
  have h2 := sum_point_swap hcS (fun x _ hx => hagree x hx)
  omega

theorem filter_card_insert_le {p q : Nat → Prop} [DecidablePred p] [DecidablePred q]
    {D : Finset Nat} {c n : Nat}
    (hq : ∀ x, x ≠ c → (q x ↔ p x)) (hle : (D.filter p).card ≤ n) :
    ((insert c D).filter q).card ≤ n + 1 := by
  have hsub : (insert c D).filter q ⊆ insert c (D.filter p) := by
    intro x hx
    rw [Finset.mem_filter, Finset.mem_insert] at hx
    obtain ⟨hcase, hqx⟩ := hx
    rcases hcase with rfl | hD
    · exact Finset.mem_insert_self x _
    · by_cases hxc : x = c
      · subst hxc
        exact Finset.mem_insert_self x _
      · exact Finset.mem_insert_of_mem (Finset.mem_filter.mpr ⟨hD, (hq x hxc).mp hqx⟩)
  calc ((insert c D).filter q).card ≤ (insert c (D.filter p)).card := Finset.card_le_card hsub
    _ ≤ (D.filter p).card + 1 := Finset.card_insert_le _ _
    _ ≤ n + 1 := by omega

theorem filter_card_remove_le {p q : Nat → Prop} [DecidablePred p] [DecidablePred q]
    {D : Finset Nat} {c n : Nat}
    (hcD : c ∈ D) (hpc : p c) (hqc : ¬ q c)
    (hq : ∀ x, x ≠ c → (q x ↔ p x)) (hle : (D.filter p).card ≤ n) :
    (D.filter q).card + 1 ≤ n := by
  have hcf : c ∈ D.filter p := Finset.mem_filter.mpr ⟨hcD, hpc⟩
  have hsub : D.filter q ⊆ (D.filter p).erase c := by
    intro x hx
    rw [Finset.mem_filter] at hx
    obtain ⟨hD, hqx⟩ := hx
    have hxc : x ≠ c := fun he => hqc (he ▸ hqx)
    exact Finset.mem_erase.mpr ⟨hxc, Finset.mem_filter.mpr ⟨hD, (hq x hxc).mp hqx⟩⟩
  have h1 : (D.filter q).card ≤ ((D.filter p).erase c).card := Finset.card_le_card hsub
  have h2 : ((D.filter p).erase c).card = (D.filter p).card - 1 :=
    Finset.card_erase_of_mem hcf
  have h3 : 1 ≤ (D.filter p).card := Finset.card_pos.mpr ⟨c, hcf⟩
  omega

/-! ## Invariant preservation: stake -/

theorem ledgerInv_stake {w w' : World} {caller uid now : Nat} {evs : List Event}
    (hI : LedgerInv w) (h : BeliefStake.stake w caller uid now = .ok (w', evs))
    (hcl : caller ≠ w.ledgerAddr) (hcs : w.strategies caller = none) : LedgerInv w' := by
  obtain ⟨hSum, hStakes, hCount, hFix, ⟨st, hst, hv, hu, hp, hb⟩, hInact, hLNS⟩ := hI
  have hysl : w.ledger.yieldStrategy ≠ w.ledgerAddr := by
    intro he
    rw [he, hLNS] at hst
    cases hst
  have hysc : w.ledger.yieldStrategy ≠ caller := by
    intro he
    rw [he, hcs] at hst
    cases hst
  unfold BeliefStake.stake at h
  split at h
  · cases h
  · split at h
    · cases h
    · rename_i huid hrec
      have hrec0 : (w.ledger.stakes uid caller).amount = 0 := not_ne_iff.mp hrec
      split at h
      · cases h
      · rename_i w₁ ht1
        simp only [] at h
        split at h
        · cases h
        · rename_i w₃ ht2
          obtain ⟨ha1, hb1, hw₁⟩ := erc20transferFrom_ok_iff.mp ht1
          subst hw₁
          simp only [erc20approve] at ht2
          obtain ⟨st2, hs2, hv2, ha2, hb2, hw₃⟩ := deposit_ok_iff.mp ht2
          dsimp only at hs2
          rw [hst] at hs2
          cases hs2
          subst hw₃
          cases h
          refine ⟨?_, ?_, ?_, ?_, ?_, ?_, ?_⟩
          · -- sumClaims
            dsimp only
            obtain ⟨S, hScov, hSeq⟩ := hSum
            have hagree : ∀ x, x ≠ uid →
                upd w.ledger.totalStaked uid (w.ledger.totalStaked uid + STAKE_AMOUNT) x =
                w.ledger.totalStaked x := fun x hx => upd_ne _ hx _
            have hguid : upd w.ledger.totalStaked uid
                (w.ledger.totalStaked uid + STAKE_AMOUNT) uid =
                w.ledger.totalStaked uid + STAKE_AMOUNT := upd_same _ _ _
            refine ⟨insert uid S, ?_, ?_⟩
            · intro c hc
              by_cases hcu : c = uid
              · subst hcu
                exact Finset.mem_insert_self c S
              · rw [hagree c hcu] at hc
                exact Finset.mem_insert_of_mem (hScov c hc)
            · rw [sum_insert_point_add hScov hguid hagree]
              omega
          · -- sumStakes
            dsimp only
            intro c
            by_cases hcu : c = uid
            · subst hcu
              obtain ⟨D, hDcov, hDeq⟩ := hStakes c
              have hagree : ∀ x, x ≠ caller →
                  (updStakes w.ledger.stakes c caller ⟨STAKE_AMOUNT, now⟩ c x).amount =
                  (w.ledger.stakes c x).amount := by
                intro x hx
                rw [updStakes_ne _ (Or.inr hx)]
              have hgc : (updStakes w.ledger.stakes c caller ⟨STAKE_AMOUNT, now⟩ c caller).amount =
                  (w.ledger.stakes c caller).amount + STAKE_AMOUNT := by
                rw [updStakes_same, hrec0]
                dsimp only
                omega
              refine ⟨insert caller D, ?_, ?_⟩
              · intro d hd
                by_cases hdc : d = caller
                · subst hdc
                  exact Finset.mem_insert_self d D
                · rw [hagree d hdc] at hd
                  exact Finset.mem_insert_of_mem (hDcov d hd)
              · rw [upd_same, sum_insert_point_add hDcov hgc hagree]
                omega
            · obtain ⟨D, hDcov, hDeq⟩ := hStakes c
              refine ⟨D, ?_, ?_⟩
              · intro d hd
                rw [updStakes_ne _ (Or.inl hcu)] at hd
                exact hDcov d hd
              · rw [upd_ne _ hcu, hDeq]
                refine Finset.sum_congr rfl (fun d _ => ?_)
                rw [updStakes_ne _ (Or.inl hcu)]
          · -- countStakes
            dsimp only
            intro c
            by_cases hcu : c = uid
            · subst hcu
              obtain ⟨D, hDcov, hDle⟩ := hCount c
              have hq : ∀ x, x ≠ caller →
                  (((updStakes w.ledger.stakes c caller ⟨STAKE_AMOUNT, now⟩ c x).amount ≠ 0) ↔
                   ((w.ledger.stakes c x).amount ≠ 0)) := by
                intro x hx
                rw [updStakes_ne _ (Or.inr hx)]
              refine ⟨insert caller D, ?_, ?_⟩
              · intro d hd
                by_cases hdc : d = caller
                · subst hdc
                  exact Finset.mem_insert_self d D
                · rw [(hq d hdc)] at hd
                  exact Finset.mem_insert_of_mem (hDcov d hd)
              · rw [upd_same]
                exact filter_card_insert_le hq hDle
            · obtain ⟨D, hDcov, hDle⟩ := hCount c
              refine ⟨D, ?_, ?_⟩
              · intro d hd
                rw [updStakes_ne _ (Or.inl hcu)] at hd
                exact hDcov d hd
              · rw [upd_ne _ hcu]
                have heq : D.filter (fun d =>
                    (updStakes w.ledger.stakes uid caller ⟨STAKE_AMOUNT, now⟩ c d).amount ≠ 0) =
                    D.filter (fun d => (w.ledger.stakes c d).amount ≠ 0) := by
                  refine Finset.filter_congr (fun d _ => ?_)
                  rw [updStakes_ne _ (Or.inl hcu)]
                rw [heq]
                exact hDle
          · -- fixedAmount
            dsimp only
            intro c d hcd
            by_cases hcu : c = uid ∧ d = caller
            · obtain ⟨rfl, rfl⟩ := hcu
              rw [updStakes_same]
            · rw [updStakes_ne _ (not_and_or.mp hcu)] at hcd ⊢
              exact hFix c d hcd
          · -- active
            dsimp only
            refine ⟨{ st with principal := st.principal + STAKE_AMOUNT }, ?_, hv, hu, ?_, ?_⟩
            · exact updStrat_same _ _ _
            · dsimp only
              omega
            · dsimp only
              rw [hu]
              rw [tfrBal_receiver _ _ (Ne.symm hysl)]
              rw [tfrBal_other _ _ (Or.inr ⟨hysc, hysl⟩)]
              omega
          · -- inactive
            dsimp only
            intro a sta ha hane
            rw [updStrat_ne _ hane] at ha
            exact hInact a sta ha hane
          · -- ledgerNotStrategy
            dsimp only
            rw [updStrat_ne _ (Ne.symm hysl)]
            exact hLNS

/-! ## Invariant preservation: unstake -/

theorem unstakeBook_ok {w : World} {caller uid : Nat} {w₁ : World} {amount : Nat}
    (h : BeliefStake.unstakeBook w caller uid = .ok (w₁, amount)) :
    (w.ledger.stakes uid caller).amount ≠ 0 ∧
    amount = (w.ledger.stakes uid caller).amount ∧
    amount ≤ w.ledger.totalStaked uid ∧ 1 ≤ w.ledger.stakerCount uid ∧
    amount ≤ w.ledger.totalPrincipal ∧
    w₁ = { w with ledger := { w.ledger with
            stakes := updStakes w.ledger.stakes uid caller ⟨0, 0⟩,
            totalStaked := upd w.ledger.totalStaked uid (w.ledger.totalStaked uid - amount),
            stakerCount := upd w.ledger.stakerCount uid (w.ledger.stakerCount uid - 1),
            totalPrincipal := w.ledger.totalPrincipal - amount } } := by
  unfold BeliefStake.unstakeBook csub at h
  simp only [] at h
  split at h
  · cases h
  · rename_i h0
    by_cases h1 : (w.ledger.stakes uid caller).amount ≤ w.ledger.totalStaked uid
    · rw [if_pos h1] at h
      by_cases h2 : 1 ≤ w.ledger.stakerCount uid
      · rw [if_pos h2] at h
        by_cases h3 : (w.ledger.stakes uid caller).amount ≤ w.ledger.totalPrincipal
        · rw [if_pos h3] at h
          cases h
          exact ⟨h0, rfl, h1, h2, h3, rfl⟩
        · rw [if_neg h3] at h
          cases h
      · rw [if_neg h2] at h
        cases h
    · rw [if_neg h1] at h
      cases h

theorem unstakeBook_eq_ok {w : World} {caller uid : Nat}
    (h0 : (w.ledger.stakes uid caller).amount ≠ 0)
    (h1 : (w.ledger.stakes uid caller).amount ≤ w.ledger.totalStaked uid)
    (h2 : 1 ≤ w.ledger.stakerCount uid)
    (h3 : (w.ledger.stakes uid caller).amount ≤ w.ledger.totalPrincipal) :
    BeliefStake.unstakeBook w caller uid = .ok
      ({ w with ledger := { w.ledger with
          stakes := updStakes w.ledger.stakes uid caller ⟨0, 0⟩,
          totalStaked := upd w.ledger.totalStaked uid
            (w.ledger.totalStaked uid - (w.ledger.stakes uid caller).amount),
          stakerCount := upd w.ledger.stakerCount uid (w.ledger.stakerCount uid - 1),
          totalPrincipal := w.ledger.totalPrincipal - (w.ledger.stakes uid caller).amount } },
        (w.ledger.stakes uid caller).amount) := by
  simp only [BeliefStake.unstakeBook, csub, if_neg h0, if_pos h1, if_pos h2, if_pos h3]

theorem ledgerInv_unstake {w w' : World} {caller uid : Nat} {evs : List Event}
    (hI : LedgerInv w) (h : BeliefStake.unstake w caller uid = .ok (w', evs))
    (hcl : caller ≠ w.ledgerAddr) (hcs : w.strategies caller = none) : LedgerInv w' := by
  obtain ⟨hSum, hStakes, hCount, hFix, ⟨st, hst, hv, hu, hp, hb⟩, hInact, hLNS⟩ := hI
  have hysl : w.ledger.yieldStrategy ≠ w.ledgerAddr := by
    intro he
    rw [he, hLNS] at hst
    cases hst
  have hysc : w.ledger.yieldStrategy ≠ caller := by
    intro he
    rw [he, hcs] at hst
    cases hst
  unfold BeliefStake.unstake at h
  split at h
  · cases h
  · rename_i w₁ amt hbook
    obtain ⟨h0, hamt, h1, h2, h3, hw₁⟩ := unstakeBook_ok hbook
    subst hamt
    subst hw₁
    unfold BeliefStake.unstakeExternal at h
    split at h
    · cases h
    · rename_i w₂ hwd
      obtain ⟨st2, hs2, hv2, hle2, hb2, hw₂⟩ := withdraw_ok_iff.mp hwd
      dsimp only at hs2
      rw [hst] at hs2
      cases hs2
      subst hw₂
      split at h
      · cases h
      · rename_i w₃ htr
        obtain ⟨hb3, hw₃⟩ := erc20transfer_ok_iff.mp htr
        subst hw₃
        cases h
        have hpos : 0 < (w.ledger.stakes uid caller).amount := Nat.pos_of_ne_zero h0
        refine ⟨?_, ?_, ?_, ?_, ?_, ?_, ?_⟩
        · -- sumClaims
          dsimp only
          obtain ⟨S, hScov, hSeq⟩ := hSum
          have huidS : uid ∈ S := hScov uid (by omega)
          have hagree : ∀ x, x ≠ uid →
              upd w.ledger.totalStaked uid
                (w.ledger.totalStaked uid - (w.ledger.stakes uid caller).amount) x =
              w.ledger.totalStaked x := fun x hx => upd_ne _ hx _
          have hswap := sum_point_sub huidS (g := upd w.ledger.totalStaked uid
              (w.ledger.totalStaked uid - (w.ledger.stakes uid caller).amount))
              (k := (w.ledger.stakes uid caller).amount) (by rw [upd_same]; omega) hagree
          refine ⟨S, ?_, ?_⟩
          · intro c hc
            by_cases hcu : c = uid
            · subst hcu
              exact huidS
            · rw [hagree c hcu] at hc
              exact hScov c hc
          · omega
        · -- sumStakes
          dsimp only
          intro c
          by_cases hcu : c = uid
          · subst hcu
            obtain ⟨D, hDcov, hDeq⟩ := hStakes c
            have hcD : caller ∈ D := hDcov caller h0
            have hagree : ∀ x, x ≠ caller →
                (updStakes w.ledger.stakes c caller ⟨0, 0⟩ c x).amount =
                (w.ledger.stakes c x).amount := by
              intro x hx
              rw [updStakes_ne _ (Or.inr hx)]
            have hswap := sum_point_sub hcD
              (g := fun d => (updStakes w.ledger.stakes c caller ⟨0, 0⟩ c d).amount)
              (k := (w.ledger.stakes c caller).amount)
              (by dsimp only; rw [updStakes_same]; dsimp only; omega) hagree
            dsimp only at hswap
            refine ⟨D, ?_, ?_⟩
            · intro d hd
              by_cases hdc : d = caller
              · subst hdc
                exact hcD
              · rw [hagree d hdc] at hd
                exact hDcov d hd
            · rw [upd_same]
              omega
          · obtain ⟨D, hDcov, hDeq⟩ := hStakes c
            refine ⟨D, ?_, ?_⟩
            · intro d hd
              rw [updStakes_ne _ (Or.inl hcu)] at hd
              exact hDcov d hd
            · rw [upd_ne _ hcu, hDeq]
              refine Finset.sum_congr rfl (fun d _ => ?_)
              rw [updStakes_ne _ (Or.inl hcu)]
        · -- countStakes
          dsimp only
          intro c
          by_cases hcu : c = uid
          · subst hcu
            obtain ⟨D, hDcov, hDle⟩ := hCount c
            have hcD : caller ∈ D := hDcov caller h0
            have hq : ∀ x, x ≠ caller →
                (((updStakes w.ledger.stakes c caller ⟨0, 0⟩ c x).amount ≠ 0) ↔
                 ((w.ledger.stakes c x).amount ≠ 0)) := by
              intro x hx
              rw [updStakes_ne _ (Or.inr hx)]
            have hrem := filter_card_remove_le hcD h0
              (by rw [updStakes_same]; dsimp only; omega) hq hDle
            refine ⟨D, ?_, ?_⟩
            · intro d hd
              by_cases hdc : d = caller
              · subst hdc
                exact hcD
              · rw [hq d hdc] at hd
                exact hDcov d hd
            · rw [upd_same]
              omega
          · obtain ⟨D, hDcov, hDle⟩ := hCount c
            refine ⟨D, ?_, ?_⟩
            · intro d hd
              rw [updStakes_ne _ (Or.inl hcu)] at hd
              exact hDcov d hd
            · rw [upd_ne _ hcu]
              have heq : D.filter (fun d =>
                  (updStakes w.ledger.stakes uid caller ⟨0, 0⟩ c d).amount ≠ 0) =
                  D.filter (fun d => (w.ledger.stakes c d).amount ≠ 0) := by
                refine Finset.filter_congr (fun d _ => ?_)
                rw [updStakes_ne _ (Or.inl hcu)]
              rw [heq]
              exact hDle
        · -- fixedAmount
          dsimp only
          intro c d hcd
          by_cases hcu : c = uid ∧ d = caller
          · obtain ⟨rfl, rfl⟩ := hcu
            rw [updStakes_same] at hcd
            dsimp only at hcd
            omega
          · rw [updStakes_ne _ (not_and_or.mp hcu)] at hcd ⊢
            exact hFix c d hcd
        · -- active
          dsimp only
          refine ⟨{ st with principal := st.principal - (w.ledger.stakes uid caller).amount },
            ?_, hv, hu, ?_, ?_⟩
          · exact updStrat_same _ _ _
          · dsimp only
            omega
          · dsimp only
            rw [hu]
            rw [tfrBal_other _ _ (Or.inr ⟨hysl, hysc⟩)]
            rw [tfrBal_sender _ _ hysl]
            omega
        · -- inactive
          dsimp only
          intro a sta ha hane
          rw [updStrat_ne _ hane] at ha
          exact hInact a sta ha hane
        · -- ledgerNotStrategy
          dsimp only
          rw [updStrat_ne _ (Ne.symm hysl)]
          exact hLNS

/-! ## Invariant preservation: migrateYieldStrategy -/

theorem ledgerInv_migrate {w w' : World} {caller newAddr : Nat} {evs : List Event}
    (hI : LedgerInv w) (h : BeliefStake.migrateYieldStrategy w caller newAddr = .ok (w', evs)) :
    LedgerInv w' := by
  obtain ⟨hSum, hStakes, hCount, hFix, ⟨st, hst, hv, hu, hp, hb⟩, hInact, hLNS⟩ := hI
  have hysl : w.ledger.yieldStrategy ≠ w.ledgerAddr := by
    intro he
    rw [he, hLNS] at hst
    cases hst
  unfold BeliefStake.migrateYieldStrategy at h
  split at h
  · cases h
  · split at h
    · cases h
    · split at h
      · cases h
      · rename_i nst hnst
        have hnl : newAddr ≠ w.ledgerAddr := by
          intro he
          rw [he, hLNS] at hnst
          cases hnst
        split at h
        · cases h
        · split at h
          · cases h
          · rename_i hnv hnu
            have hnv0 : nst.vault = w.ledgerAddr := not_ne_iff.mp hnv
            have hnu0 : nst.usdc = w.ledger.usdc := not_ne_iff.mp hnu
            simp only [] at h
            split at h
            · cases h
            · rename_i w₁ withdrawn hwa
              obtain ⟨st2, hs2, hcv, hbw, hamt, hw₁⟩ := withdrawAll_ok_iff.mp hwa
              rw [hst] at hs2
              cases hs2
              subst hamt
              subst hw₁
              simp only [BeliefStake.migrateAfterWithdrawAll, erc20approve] at h
              split at h
              · cases h
              · rename_i w₃ hdep
                obtain ⟨st3, hs3, hv3, ha3, hb3, hw₃⟩ := deposit_ok_iff.mp hdep
                dsimp only at hs3
                have hst3 : st3.principal = 0 ∧ st3.vault = w.ledgerAddr ∧
                    st3.usdc = w.ledger.usdc := by
                  by_cases hny : newAddr = w.ledger.yieldStrategy
                  · rw [hny, updStrat_same] at hs3
                    cases hs3
                    exact ⟨rfl, hv, hu⟩
                  · rw [updStrat_ne _ hny] at hs3
                    rw [hnst] at hs3
                    cases hs3
                    exact ⟨hInact newAddr nst hnst hny, hnv0, hnu0⟩
                obtain ⟨hp3, hv3', hu3⟩ := hst3
                subst hw₃
                split at h
                · cases h
                · rename_i excess hexc
                  have hexc0 : excess = 0 := by
                    dsimp only at hexc
                    unfold csub at hexc
                    split at hexc
                    · cases hexc
                      omega
                    · cases hexc
                  subst hexc0
                  rw [if_neg (by omega)] at h
                  cases h
                  refine ⟨?_, ?_, ?_, ?_, ?_, ?_, ?_⟩
                  · dsimp only
                    exact hSum
                  · dsimp only
                    exact hStakes
                  · dsimp only
                    exact hCount
                  · dsimp only
                    exact hFix
                  · -- active
                    dsimp only
                    refine ⟨{ st3 with principal :=
                        st3.principal + w.ledger.totalPrincipal }, ?_, hv3', hu3, ?_, ?_⟩
                    · exact updStrat_same _ _ _
                    · dsimp only
                      omega
                    · dsimp only
                      rw [hu3]
                      rw [tfrBal_receiver _ _ (Ne.symm hnl)]
                      omega
                  · -- inactive
                    dsimp only
                    intro a sta ha hane
                    rw [updStrat_ne _ hane] at ha
                    by_cases hay : a = w.ledger.yieldStrategy
                    · subst hay
                      rw [updStrat_same] at ha
                      cases ha
                      rfl
                    · rw [updStrat_ne _ hay, ] at ha
                      exact hInact a sta ha hay
                  · -- ledgerNotStrategy
                    dsimp only
                    rw [updStrat_ne _ (Ne.symm hnl), updStrat_ne _ (Ne.symm hysl)]
                    exact hLNS

/-- Every reachable world satisfies the ledger invariant. -/
theorem reach_ledgerInv {w : World} (h : Reach w) : LedgerInv w := by
  induction h with
  | init usdcA ledgerA stratA treasuryA ownerA bal0 allow0 hu hs ht hl hsl =>
    exact ledgerInv_mkInit usdcA ledgerA stratA treasuryA ownerA bal0 allow0 hsl
  | stake hw hok hc hcs ih => exact ledgerInv_stake ih hok hc hcs
  | unstake hw hok hc hcs ih => exact ledgerInv_unstake ih hok hc hcs
  | migrate hw hok ih => exact ledgerInv_migrate ih hok
  | harvest hw hok ih => exact ledgerInv_harvest ih hok
  | setTreasury hw hok ih => exact ledgerInv_setTreasury ih hok
  | rescue hw hok ih => exact ledgerInv_rescue ih hok
  | deploy hw hok hfree hna h0 ih => exact ledgerInv_deploy ih hok hfree hna
  | approve hw ho hos ih => exact ledgerInv_approve ih _ _ _ _
  | transfer hw hok hs hss ih => exact ledgerInv_envTransfer ih hok hs hss

/-! ## Claim theorems -/

/-- C1: for every reachable ledger state (after every successful stake,
unstake, migrateYieldStrategy or harvestYield, starting from deployment),
`totalPrincipal` equals the sum of `totalStaked[c]` over all claim
identifiers (any finite set covering the support of `totalStaked`), and both
equal the active backend's `principal()`. -/
theorem C1_totalPrincipal_invariant {w : World} (hw : Reach w) :
    (∀ S : Finset Nat, (∀ c, w.ledger.totalStaked c ≠ 0 → c ∈ S) →
      w.ledger.totalPrincipal = ∑ c in S, w.ledger.totalStaked c) ∧
    w.ledger.totalPrincipal = activePrincipal w := by
  obtain ⟨⟨S₀, hcov₀, heq₀⟩, -, -, -, ⟨st, hst, -, -, hp, -⟩, -, -⟩ := reach_ledgerInv hw
  constructor
  · intro S hcov
    rw [heq₀, sum_cover_congr hcov₀ hcov]
  · simp only [activePrincipal, hst]
    omega

theorem C1_totalPrincipal_invariant_witness :
    W0c.ledger.totalPrincipal = ∑ c in (∅ : Finset Nat), W0c.ledger.totalStaked c ∧
    W0c.ledger.totalPrincipal = activePrincipal W0c := by
  have hr : Reach W0c := Reach.init 2 1 3 4 5
    (fun t h => if t = 2 ∧ h = 7 then 10000000 else 0)
    (fun t o s => if t = 2 ∧ o = 7 ∧ s = 1 then 10000000 else 0)
    (by decide) (by decide) (by decide) (by decide) (by decide)
  have h := C1_totalPrincipal_invariant hr
  exact ⟨h.1 ∅ (fun c hc => absurd rfl hc), h.2⟩

/-- C3: in every reachable state, a depositor (an externally-owned account)
with an active StakeRecord on claim `c` can unstake and receives back exactly
the fixed `STAKE_AMOUNT` (2000000), independent of yield and after any number
of migrations; the record is cleared. -/
theorem C3_unstake_recovers_stake {w : World} {c d : Nat} (hw : Reach w)
    (hrec : (w.ledger.stakes c d).amount ≠ 0)
    (hdl : d ≠ w.ledgerAddr) (hds : w.strategies d = none) :
    ∃ w', BeliefStake.unstake w d c = .ok (w', [Event.Unstaked c d STAKE_AMOUNT]) ∧
      w'.bal w.ledger.usdc d = w.bal w.ledger.usdc d + STAKE_AMOUNT ∧
      (w'.ledger.stakes c d).amount = 0 := by
  obtain ⟨hSum, hStakes, hCount, hFix, ⟨st, hst, hv, hu, hp, hb⟩, hInact, hLNS⟩ :=
    reach_ledgerInv hw
  have hysl : w.ledger.yieldStrategy ≠ w.ledgerAddr := by
    intro he
    rw [he, hLNS] at hst
    cases hst
  have hysd : w.ledger.yieldStrategy ≠ d := by
    intro he
    rw [he, hds] at hst
    cases hst
  have hamt : (w.ledger.stakes c d).amount = STAKE_AMOUNT := hFix c d hrec
  obtain ⟨D, hDcov, hDeq⟩ := hStakes c
  have hdD : d ∈ D := hDcov d hrec
  have h1 : (w.ledger.stakes c d).amount ≤ w.ledger.totalStaked c := by
    rw [hDeq]
    exact Finset.single_le_sum (f := fun x => (w.ledger.stakes c x).amount)
      (fun i _ => Nat.zero_le _) hdD
  obtain ⟨Dc, hDccov, hDcle⟩ := hCount c
  have h2 : 1 ≤ w.ledger.stakerCount c := by
    have hdf : d ∈ Dc.filter (fun x => (w.ledger.stakes c x).amount ≠ 0) :=
      Finset.mem_filter.mpr ⟨hDccov d hrec, hrec⟩
    have hpos := Finset.card_pos.mpr ⟨d, hdf⟩
    omega
  obtain ⟨S, hScov, hSeq⟩ := hSum
  have hcS : c ∈ S := hScov c (by omega)
  have h3 : (w.ledger.stakes c d).amount ≤ w.ledger.totalPrincipal := by
    have hle := Finset.single_le_sum (f := w.ledger.totalStaked) (fun i _ => Nat.zero_le _) hcS
    omega
  set A := (w.ledger.stakes c d).amount with hA
  set W1 : World := { w with ledger := { w.ledger with
      stakes := updStakes w.ledger.stakes c d ⟨0, 0⟩,
      totalStaked := upd w.ledger.totalStaked c (w.ledger.totalStaked c - A),
      stakerCount := upd w.ledger.stakerCount c (w.ledger.stakerCount c - 1),
      totalPrincipal := w.ledger.totalPrincipal - A } } with hW1
  have hbook : BeliefStake.unstakeBook w d c = .ok (W1, A) :=
    unstakeBook_eq_ok hrec h1 h2 h3
  have hle2 : A ≤ st.principal := by omega
  have hble2 : A ≤ W1.bal st.usdc W1.ledger.yieldStrategy := by
    rw [hW1]
    dsimp only
    rw [hu]
    omega
  set W2 : World := { W1 with
      bal := tfrBal W1.bal st.usdc W1.ledger.yieldStrategy W1.ledgerAddr A,
      strategies := updStrat W1.strategies W1.ledger.yieldStrategy
        { st with principal := st.principal - A } } with hW2
  have hwd : NullStrategy.withdraw W1 W1.ledger.yieldStrategy W1.ledgerAddr A = .ok W2 :=
    withdraw_ok_iff.mpr ⟨st, hst, hv.symm, hle2, hble2, rfl⟩
  have hble3 : A ≤ W2.bal W2.ledger.usdc W2.ledgerAddr := by
    rw [hW2, hW1]
    dsimp only
    rw [← hu]
    rw [tfrBal_receiver _ _ hysl]
    omega
  set W3 : World := { W2 with
      bal := tfrBal W2.bal W2.ledger.usdc W2.ledgerAddr d A } with hW3
  have htr : erc20transfer W2 W2.ledger.usdc W2.ledgerAddr d A = .ok W3 :=
    erc20transfer_ok_iff.mpr ⟨hble3, rfl⟩
  refine ⟨W3, ?_, ?_, ?_⟩
  · simp only [BeliefStake.unstake, hbook, BeliefStake.unstakeExternal, hwd, htr]
    rw [hamt]
  · rw [hW3, hW2, hW1]
    dsimp only
    rw [tfrBal_receiver _ _ (Ne.symm hdl)]
    rw [tfrBal_other _ _ (Or.inr ⟨Ne.symm hysd, hdl⟩)]
    omega
  · rw [hW3, hW2, hW1]
    dsimp only
    rw [updStakes_same]

theorem C3_unstake_recovers_stake_witness :
    (W1c.ledger.stakes 99 7).amount ≠ 0 ∧ 7 ≠ W1c.ledgerAddr ∧ W1c.strategies 7 = none ∧
    (∃ w', BeliefStake.unstake W1c 7 99 = .ok (w', [Event.Unstaked 99 7 STAKE_AMOUNT]) ∧
      w'.bal W1c.ledger.usdc 7 = W1c.bal W1c.ledger.usdc 7 + STAKE_AMOUNT ∧
      (w'.ledger.stakes 99 7).amount = 0) := by
  have hr0 : Reach W0c := Reach.init 2 1 3 4 5
    (fun t h => if t = 2 ∧ h = 7 then 10000000 else 0)
    (fun t o s => if t = 2 ∧ o = 7 ∧ s = 1 then 10000000 else 0)
    (by decide) (by decide) (by decide) (by decide) (by decide)
  have hstake : BeliefStake.stake W0c 7 99 11 = .ok (W1c, [Event.Staked 99 7 STAKE_AMOUNT 11]) :=
    rfl
  have hr : Reach W1c := Reach.stake hr0 hstake (by decide) rfl
  exact ⟨by decide, by decide, rfl,
    C3_unstake_recovers_stake hr (by decide) (by decide) rfl⟩

/-- C2: when the old backend's `withdrawAll()` returned `totalPrincipal + Y`
(already credited to the ledger), the migration tail deposits exactly
`totalPrincipal` into the (fresh, correctly wired) new backend, sends exactly
`Y` to the treasury with a YieldHarvested event, and the new backend's
`principal()` equals exactly `totalPrincipal`. -/
theorem C2_migration_yield_routing {w : World} {oldAddr newAddr Y : Nat} {nst : Strategy}
    (hns : w.strategies newAddr = some nst)
    (hnv : nst.vault = w.ledgerAddr) (hnu : nst.usdc = w.ledger.usdc)
    (hnp : nst.principal = 0) (hY : 0 < Y)
    (hbal : w.ledger.totalPrincipal + Y ≤ w.bal w.ledger.usdc w.ledgerAddr)
    (hnl : newAddr ≠ w.ledgerAddr)
    (htl : w.ledger.treasury ≠ w.ledgerAddr) (htn : w.ledger.treasury ≠ newAddr) :
    ∃ w', BeliefStake.migrateAfterWithdrawAll w oldAddr newAddr
        (w.ledger.totalPrincipal + Y) =
        .ok (w', [Event.YieldHarvested Y w.ledger.treasury,
                  Event.StrategyMigrated oldAddr newAddr w.ledger.totalPrincipal]) ∧
      w'.bal w.ledger.usdc w.ledger.treasury = w.bal w.ledger.usdc w.ledger.treasury + Y ∧
      activePrincipal w' = w.ledger.totalPrincipal ∧
      w'.ledger.yieldStrategy = newAddr ∧
      w'.bal w.ledger.usdc newAddr = w.bal w.ledger.usdc newAddr + w.ledger.totalPrincipal ∧
      w'.ledger.totalPrincipal = w.ledger.totalPrincipal := by
  have hdep : NullStrategy.deposit
      { w with allow := upd3 w.allow w.ledger.usdc w.ledgerAddr newAddr w.ledger.totalPrincipal,
               ledger := { w.ledger with yieldStrategy := newAddr } }
      newAddr w.ledgerAddr w.ledger.totalPrincipal = .ok
      { w with
        bal := tfrBal w.bal nst.usdc w.ledgerAddr newAddr w.ledger.totalPrincipal,
        allow := upd3 (upd3 w.allow w.ledger.usdc w.ledgerAddr newAddr w.ledger.totalPrincipal)
          nst.usdc w.ledgerAddr newAddr
          (upd3 w.allow w.ledger.usdc w.ledgerAddr newAddr w.ledger.totalPrincipal
            nst.usdc w.ledgerAddr newAddr - w.ledger.totalPrincipal),
        ledger := { w.ledger with yieldStrategy := newAddr },
        strategies := updStrat w.strategies newAddr
          { nst with principal := nst.principal + w.ledger.totalPrincipal } } := by
    refine deposit_ok_iff.mpr ⟨nst, hns, hnv.symm, ?_, ?_, rfl⟩
    · dsimp only
      rw [hnu, upd3_same]
    · dsimp only
      rw [hnu]
      omega
  have htr : erc20transfer
      { w with
        bal := tfrBal w.bal nst.usdc w.ledgerAddr newAddr w.ledger.totalPrincipal,
        allow := upd3 (upd3 w.allow w.ledger.usdc w.ledgerAddr newAddr w.ledger.totalPrincipal)
          nst.usdc w.ledgerAddr newAddr
          (upd3 w.allow w.ledger.usdc w.ledgerAddr newAddr w.ledger.totalPrincipal
            nst.usdc w.ledgerAddr newAddr - w.ledger.totalPrincipal),
        ledger := { w.ledger with yieldStrategy := newAddr },
        strategies := updStrat w.strategies newAddr
          { nst with principal := nst.principal + w.ledger.totalPrincipal } }
      w.ledger.usdc w.ledgerAddr w.ledger.treasury Y = .ok
      { w with
        bal := tfrBal (tfrBal w.bal nst.usdc w.ledgerAddr newAddr w.ledger.totalPrincipal)
          w.ledger.usdc w.ledgerAddr w.ledger.treasury Y,
        allow := upd3 (upd3 w.allow w.ledger.usdc w.ledgerAddr newAddr w.ledger.totalPrincipal)
          nst.usdc w.ledgerAddr newAddr
          (upd3 w.allow w.ledger.usdc w.ledgerAddr newAddr w.ledger.totalPrincipal
            nst.usdc w.ledgerAddr newAddr - w.ledger.totalPrincipal),
        ledger := { w.ledger with yieldStrategy := newAddr },
        strategies := updStrat w.strategies newAddr
          { nst with principal := nst.principal + w.ledger.totalPrincipal } } := by
    refine erc20transfer_ok_iff.mpr ⟨?_, rfl⟩
    dsimp only
    rw [hnu]
    rw [tfrBal_sender _ _ (Ne.symm hnl)]
    omega
  refine ⟨{ w with
      bal := tfrBal (tfrBal w.bal nst.usdc w.ledgerAddr newAddr w.ledger.totalPrincipal)
        w.ledger.usdc w.ledgerAddr w.ledger.treasury Y,
      allow := upd3 (upd3 w.allow w.ledger.usdc w.ledgerAddr newAddr w.ledger.totalPrincipal)
        nst.usdc w.ledgerAddr newAddr
        (upd3 w.allow w.ledger.usdc w.ledgerAddr newAddr w.ledger.totalPrincipal
          nst.usdc w.ledgerAddr newAddr - w.ledger.totalPrincipal),
      ledger := { w.ledger with yieldStrategy := newAddr },
      strategies := updStrat w.strategies newAddr
        { nst with principal := nst.principal + w.ledger.totalPrincipal } }, ?_, ?_, ?_, ?_, ?_, ?_⟩
  · simp only [BeliefStake.migrateAfterWithdrawAll, erc20approve, hdep, csub,
      Nat.le_add_right, if_true, Nat.add_sub_cancel_left, hY, htr]
  · show tfrBal (tfrBal w.bal nst.usdc w.ledgerAddr newAddr w.ledger.totalPrincipal)
        w.ledger.usdc w.ledgerAddr w.ledger.treasury Y w.ledger.usdc w.ledger.treasury =
        w.bal w.ledger.usdc w.ledger.treasury + Y
    rw [tfrBal_receiver _ _ (Ne.symm htl)]
    rw [tfrBal_other _ _ (Or.inr ⟨htl, htn⟩)]
  · simp only [activePrincipal, updStrat_same]
    omega
  · rfl
  · show tfrBal (tfrBal w.bal nst.usdc w.ledgerAddr newAddr w.ledger.totalPrincipal)
        w.ledger.usdc w.ledgerAddr w.ledger.treasury Y w.ledger.usdc newAddr =
        w.bal w.ledger.usdc newAddr + w.ledger.totalPrincipal
    rw [tfrBal_other _ _ (Or.inr ⟨hnl, fun he => htn he.symm⟩)]
    rw [← hnu]
    rw [tfrBal_receiver _ _ (Ne.symm hnl)]
  · rfl

theorem C2_migration_yield_routing_witness :
    (0 : Nat) < 20 ∧
    W2c.ledger.totalPrincipal + 20 ≤ W2c.bal W2c.ledger.usdc W2c.ledgerAddr ∧
    (∃ w', BeliefStake.migrateAfterWithdrawAll W2c 3 6 (W2c.ledger.totalPrincipal + 20) =
        .ok (w', [Event.YieldHarvested 20 W2c.ledger.treasury,
                  Event.StrategyMigrated 3 6 W2c.ledger.totalPrincipal]) ∧
      w'.bal W2c.ledger.usdc W2c.ledger.treasury =
        W2c.bal W2c.ledger.usdc W2c.ledger.treasury + 20 ∧
      activePrincipal w' = W2c.ledger.totalPrincipal ∧
      w'.ledger.yieldStrategy = 6 ∧
      w'.bal W2c.ledger.usdc 6 = W2c.bal W2c.ledger.usdc 6 + W2c.ledger.totalPrincipal ∧
      w'.ledger.totalPrincipal = W2c.ledger.totalPrincipal) :=
  ⟨by decide, by decide,
    @C2_migration_yield_routing W2c 3 6 20 ⟨2, 1, 0⟩ rfl rfl rfl rfl
      (by decide) (by decide) (by decide) (by decide) (by decide)⟩

/-- C10: if the old backend's `withdrawAll()` returned strictly less than
`totalPrincipal`, the migration tail cannot succeed: either the deposit of
`totalPrincipal` cannot be funded, or the checked subtraction
`withdrawn - totalPrincipal` underflows.  (An `error` result reverts the
transaction, so the ledger state, including the active backend reference, is
unchanged.) -/
theorem C10_migration_fails_on_shortfall {w : World} {oldAddr newAddr withdrawn : Nat}
    (hlt : withdrawn < w.ledger.totalPrincipal) :
    ∀ r, BeliefStake.migrateAfterWithdrawAll w oldAddr newAddr withdrawn ≠ .ok r := by
  intro r hok
  unfold BeliefStake.migrateAfterWithdrawAll at hok
  simp only [erc20approve] at hok
  split at hok
  · cases hok
  · rename_i w₃ hdep
    split at hok
    · cases hok
    · rename_i excess hexc
      obtain ⟨st3, hs3, hv3, ha3, hb3, hw₃⟩ := deposit_ok_iff.mp hdep
      subst hw₃
      dsimp only at hexc
      unfold csub at hexc
      split at hexc
      · rename_i hle
        omega
      · cases hexc

theorem C10_migration_fails_on_shortfall_witness :
    (10 : Nat) < W2c.ledger.totalPrincipal ∧
    ∀ r, BeliefStake.migrateAfterWithdrawAll W2c 3 6 10 ≠ .ok r :=
  ⟨by decide, C10_migration_fails_on_shortfall (by decide)⟩

/-- C4 counterexample: in a state where the NullBackend's held balance (15)
exceeds its tracked principal (10), `withdrawAll()` called by the vault
returns only the tracked principal — not the full balance — and the surplus
of 5 stays in the backend. -/
theorem C4_counterexample :
    W4c.bal 2 3 = 15 ∧ strategyPrincipal W4c 3 = 10 ∧
    ∃ w', NullStrategy.withdrawAll W4c 3 1 = .ok (w', 10) ∧
      w'.bal 2 3 = 5 ∧ (10 : Nat) ≠ W4c.bal 2 3 :=
  ⟨rfl, rfl, W4cAfter, rfl, rfl, by decide⟩

/-- C4 amended: `withdrawAll()` (vault-only) returns exactly the tracked
`_principal` to the caller and zeroes the principal counter; the held balance
in excess of the tracked principal is not returned and stays with the
backend. -/
theorem C4_withdrawAll_returns_principal {w : World} {a caller : Nat} {st : Strategy}
    (hs : w.strategies a = some st) (hc : caller = st.vault)
    (hb : st.principal ≤ w.bal st.usdc a) (hca : caller ≠ a) :
    ∃ w', NullStrategy.withdrawAll w a caller = .ok (w', st.principal) ∧
      strategyPrincipal w' a = 0 ∧
      w'.bal st.usdc a = w.bal st.usdc a - st.principal ∧
      w'.bal st.usdc caller = w.bal st.usdc caller + st.principal := by
  refine ⟨_, withdrawAll_ok_iff.mpr ⟨st, hs, hc, hb, rfl, rfl⟩, ?_, ?_, ?_⟩
  · simp only [strategyPrincipal, updStrat_same]
  · show tfrBal w.bal st.usdc a caller st.principal st.usdc a =
      w.bal st.usdc a - st.principal
    rw [tfrBal_sender _ _ (fun he => hca he.symm)]
  · show tfrBal w.bal st.usdc a caller st.principal st.usdc caller =
      w.bal st.usdc caller + st.principal
    rw [tfrBal_receiver _ _ (fun he => hca he.symm)]

theorem C4_withdrawAll_returns_principal_witness :
    W4c.strategies 3 = some ⟨2, 1, 10⟩ ∧ (1 : Nat) ≠ 3 ∧
    (10 : Nat) ≤ W4c.bal 2 3 ∧
    (∃ w', NullStrategy.withdrawAll W4c 3 1 = .ok (w', 10) ∧
      strategyPrincipal w' 3 = 0 ∧
      w'.bal 2 3 = W4c.bal 2 3 - 10 ∧
      w'.bal 2 1 = W4c.bal 2 1 + 10) :=
  ⟨rfl, by decide, by decide,
    @C4_withdrawAll_returns_principal W4c 3 1 ⟨2, 1, 10⟩ rfl rfl (by decide) (by decide)⟩

/-- C9 counterexample: `harvestYield` on the NullBackend carries no vault
gate — a caller (9) different from the bound vault (1) does not revert; the
call succeeds, returning 0 and changing nothing. -/
theorem C9_counterexample :
    W4c.strategies 3 = some ⟨2, 1, 10⟩ ∧ (9 : Nat) ≠ 1 ∧
    NullStrategy.harvestYield W4c 3 9 7 = .ok (W4c, 0) :=
  ⟨rfl, by decide, rfl⟩

/-- C9 amended: the NullBackend's mutating operations `deposit`, `withdraw`
and `withdrawAll` each revert with OnlyVault for every caller other than the
bound vault (an immutable fixed at construction); `harvestYield`, which is
pure and moves nothing, is not vault-gated and returns 0 for any caller. -/
theorem C9_vault_gating {w : World} {a caller : Nat} {st : Strategy}
    (hs : w.strategies a = some st) (hc : caller ≠ st.vault) :
    (∀ amount, NullStrategy.deposit w a caller amount = .error .OnlyVault) ∧
    (∀ amount, NullStrategy.withdraw w a caller amount = .error .OnlyVault) ∧
    NullStrategy.withdrawAll w a caller = .error .OnlyVault ∧
    (∀ recipient, NullStrategy.harvestYield w a caller recipient = .ok (w, 0)) := by
  refine ⟨?_, ?_, ?_, ?_⟩
  · intro amount
    unfold NullStrategy.deposit
    simp only [hs]
    rw [if_neg hc]
  · intro amount
    unfold NullStrategy.withdraw
    simp only [hs]
    rw [if_neg hc]
  · unfold NullStrategy.withdrawAll
    simp only [hs]
    rw [if_neg hc]
  · intro recipient
    unfold NullStrategy.harvestYield
    simp only [hs]

theorem C9_vault_gating_witness :
    W4c.strategies 3 = some ⟨2, 1, 10⟩ ∧ (9 : Nat) ≠ 1 ∧
    ((∀ amount, NullStrategy.deposit W4c 3 9 amount = .error .OnlyVault) ∧
     (∀ amount, NullStrategy.withdraw W4c 3 9 amount = .error .OnlyVault) ∧
     NullStrategy.withdrawAll W4c 3 9 = .error .OnlyVault ∧
     (∀ recipient, NullStrategy.harvestYield W4c 3 9 recipient = .ok (W4c, 0))) :=
  ⟨rfl, by decide, @C9_vault_gating W4c 3 9 ⟨2, 1, 10⟩ rfl (by decide)⟩

/-- C6: per (claimId, depositor) pair the only transitions are staking from
the empty state and unstaking from the staked state: `stake` with an existing
record fails with AlreadyStaked and `unstake` without a record (including a
second consecutive unstake) fails with NoStakeFound.  A failing call reverts,
so the state after the failed second `stake` is identical to the state after
the first. -/
theorem C6_state_machine {w : World} {uid d now : Nat} :
    (uid ≠ 0 → (w.ledger.stakes uid d).amount ≠ 0 →
      BeliefStake.stake w d uid now = .error .AlreadyStaked) ∧
    ((w.ledger.stakes uid d).amount = 0 →
      BeliefStake.unstake w d uid = .error .NoStakeFound) := by
  constructor
  · intro h0 hrec
    unfold BeliefStake.stake
    rw [if_neg h0, if_pos hrec]
  · intro hrec
    simp only [BeliefStake.unstake, BeliefStake.unstakeBook]
    rw [if_pos hrec]

theorem C6_state_machine_witness :
    ((99 : Nat) ≠ 0 ∧ (W1c.ledger.stakes 99 7).amount ≠ 0 ∧
      BeliefStake.stake W1c 7 99 12 = .error .AlreadyStaked) ∧
    ((W1c.ledger.stakes 55 7).amount = 0 ∧
      BeliefStake.unstake W1c 7 55 = .error .NoStakeFound) :=
  ⟨⟨by decide, by decide, (@C6_state_machine W1c 99 7 12).1 (by decide) (by decide)⟩,
   ⟨by decide, (@C6_state_machine W1c 55 7 0).2 (by decide)⟩⟩

/-- C7: called by the owner, `migrateYieldStrategy` fails with InvalidAddress
for the zero address, and with StrategyMismatch when the candidate's bound
vault is not this ledger or its bound token differs from the ledger's token.
A failing call reverts, leaving the active backend reference and all other
ledger state unchanged. -/
theorem C7_migrate_checks {w : World} {caller na : Nat} {nst : Strategy}
    (hc : caller = w.ledger.owner) :
    (BeliefStake.migrateYieldStrategy w caller 0 = .error .InvalidAddress) ∧
    (na ≠ 0 → w.strategies na = some nst → nst.vault ≠ w.ledgerAddr →
      BeliefStake.migrateYieldStrategy w caller na = .error .StrategyMismatch) ∧
    (na ≠ 0 → w.strategies na = some nst → nst.vault = w.ledgerAddr →
      nst.usdc ≠ w.ledger.usdc →
      BeliefStake.migrateYieldStrategy w caller na = .error .StrategyMismatch) := by
  refine ⟨?_, ?_, ?_⟩
  · unfold BeliefStake.migrateYieldStrategy
    rw [if_neg (fun hne => hne hc), if_pos rfl]
  · intro hna hns hmv
    unfold BeliefStake.migrateYieldStrategy
    rw [if_neg (fun hne => hne hc), if_neg hna]
    simp only [hns]
    rw [if_pos hmv]
  · intro hna hns hmv hmu
    unfold BeliefStake.migrateYieldStrategy
    rw [if_neg (fun hne => hne hc), if_neg hna]
    simp only [hns]
    rw [if_neg (fun hne => hne hmv), if_pos hmu]

theorem C7_migrate_checks_witness :
    (5 : Nat) = W7c.ledger.owner ∧
    BeliefStake.migrateYieldStrategy W7c 5 0 = .error .InvalidAddress ∧
    ((6 : Nat) ≠ 0 ∧ W7c.strategies 6 = some ⟨2, 9, 0⟩ ∧ (9 : Nat) ≠ W7c.ledgerAddr ∧
      BeliefStake.migrateYieldStrategy W7c 5 6 = .error .StrategyMismatch) ∧
    ((8 : Nat) ≠ 0 ∧ W7c.strategies 8 = some ⟨7, 1, 0⟩ ∧ (7 : Nat) ≠ W7c.ledger.usdc ∧
      BeliefStake.migrateYieldStrategy W7c 5 8 = .error .StrategyMismatch) :=
  ⟨rfl, (@C7_migrate_checks W7c 5 6 ⟨2, 9, 0⟩ rfl).1,
   ⟨by decide, rfl, by decide,
     (@C7_migrate_checks W7c 5 6 ⟨2, 9, 0⟩ rfl).2.1 (by decide) rfl (by decide)⟩,
   ⟨by decide, rfl, by decide,
     (@C7_migrate_checks W7c 5 8 ⟨7, 1, 0⟩ rfl).2.2 (by decide) rfl rfl (by decide)⟩⟩

/-- C8: in `unstake`, the record deletion and the decrements of
`totalStaked[claimId]`, `stakerCount[claimId]` and `totalPrincipal` all land
in the intermediate state `w₁` computed strictly before the first external
call; `unstake` is exactly that bookkeeping followed by the external phase
(the backend withdraw, then the token transfer), evaluated at `w₁`, whose
token and strategy state are untouched. -/
theorem C8_effects_before_interactions {w : World} {caller uid : Nat} {w₁ : World}
    {amount : Nat} (h : BeliefStake.unstakeBook w caller uid = .ok (w₁, amount)) :
    BeliefStake.unstake w caller uid = BeliefStake.unstakeExternal w₁ caller uid amount ∧
    w₁.bal = w.bal ∧ w₁.allow = w.allow ∧ w₁.strategies = w.strategies ∧
    w₁.ledger.yieldStrategy = w.ledger.yieldStrategy ∧
    (w₁.ledger.stakes uid caller).amount = 0 ∧
    amount = (w.ledger.stakes uid caller).amount ∧
    w₁.ledger.totalStaked uid = w.ledger.totalStaked uid - amount ∧
    w₁.ledger.stakerCount uid = w.ledger.stakerCount uid - 1 ∧
    w₁.ledger.totalPrincipal = w.ledger.totalPrincipal - amount := by
  obtain ⟨h0, hamt, h1, h2, h3, hw₁⟩ := unstakeBook_ok h
  subst hw₁
  refine ⟨?_, rfl, rfl, rfl, rfl, ?_, hamt, ?_, ?_, rfl⟩
  · simp only [BeliefStake.unstake, h]
  · show (updStakes w.ledger.stakes uid caller ⟨0, 0⟩ uid caller).amount = 0
    rw [updStakes_same]
  · show upd w.ledger.totalStaked uid (w.ledger.totalStaked uid - amount) uid =
      w.ledger.totalStaked uid - amount
    rw [upd_same]
  · show upd w.ledger.stakerCount uid (w.ledger.stakerCount uid - 1) uid =
      w.ledger.stakerCount uid - 1
    rw [upd_same]

theorem C8_effects_before_interactions_witness :
    BeliefStake.unstakeBook W1c 7 99 = .ok (W1b, 2000000) ∧
    BeliefStake.unstake W1c 7 99 = BeliefStake.unstakeExternal W1b 7 99 2000000 ∧
    (W1b.ledger.stakes 99 7).amount = 0 ∧ W1b.bal = W1c.bal :=
  ⟨rfl,
   (C8_effects_before_interactions
     (show BeliefStake.unstakeBook W1c 7 99 = .ok (W1b, 2000000) from rfl)).1,
   (C8_effects_before_interactions
     (show BeliefStake.unstakeBook W1c 7 99 = .ok (W1b, 2000000) from rfl)).2.2.2.2.2.1,
   (C8_effects_before_interactions
     (show BeliefStake.unstakeBook W1c 7 99 = .ok (W1b, 2000000) from rfl)).2.1⟩

/-- C5: in every reachable state, when the owner rescues the staking token
from the ledger, the amount moved is the full direct balance, which never
exceeds the balance minus the part needed to back `totalPrincipal` — that
part is 0, because the active backend itself holds `totalPrincipal`; for any
other token the full direct balance is swept to the recipient. -/
theorem C5_rescueTokens_bound {w : World} {caller token dst : Nat} (hw : Reach w)
    (hc : caller = w.ledger.owner) (hdl : dst ≠ w.ledgerAddr) :
    (token = w.ledger.usdc →
      ∃ w', BeliefStake.rescueTokens w caller token dst = .ok w' ∧
        w'.bal w.ledger.usdc w.ledgerAddr = 0 ∧
        w.bal w.ledger.usdc w.ledgerAddr - w'.bal w.ledger.usdc w.ledgerAddr ≤
          w.bal w.ledger.usdc w.ledgerAddr - requiredBacking w ∧
        requiredBacking w = 0) ∧
    (token ≠ w.ledger.usdc →
      ∃ w', BeliefStake.rescueTokens w caller token dst = .ok w' ∧
        w'.bal token w.ledgerAddr = 0 ∧
        w'.bal token dst = w.bal token dst + w.bal token w.ledgerAddr) := by
  obtain ⟨-, -, -, -, ⟨st, hst, -, -, hp, -⟩, -, -⟩ := reach_ledgerInv hw
  have hreq : requiredBacking w = 0 := by
    simp only [requiredBacking, activePrincipal, hst]
    omega
  have hsw0 : ∀ t, sweepBal w t dst t w.ledgerAddr = 0 := by
    intro t
    unfold sweepBal
    rw [tfrBal_sender _ _ (Ne.symm hdl)]
    omega
  have hswr : ∀ t, sweepBal w t dst t dst = w.bal t dst + w.bal t w.ledgerAddr := by
    intro t
    unfold sweepBal
    rw [tfrBal_receiver _ _ (Ne.symm hdl)]
  constructor
  · intro htok
    by_cases hbpos : 0 < w.bal w.ledger.usdc w.ledgerAddr
    · have htr : erc20transfer w w.ledger.usdc w.ledgerAddr dst
          (w.bal w.ledger.usdc w.ledgerAddr) = .ok { w with bal := sweepBal w w.ledger.usdc dst } :=
        erc20transfer_ok_iff.mpr ⟨Nat.le_refl _, rfl⟩
      refine ⟨{ w with bal := sweepBal w w.ledger.usdc dst }, ?_, ?_, ?_, hreq⟩
      · simp only [BeliefStake.rescueTokens]
        rw [if_neg (fun hne => hne hc), if_pos htok]
        simp only [hbpos, if_true]
        exact htr
      · exact hsw0 w.ledger.usdc
      · rw [hreq]
        show w.bal w.ledger.usdc w.ledgerAddr -
          sweepBal w w.ledger.usdc dst w.ledger.usdc w.ledgerAddr ≤
          w.bal w.ledger.usdc w.ledgerAddr - 0
        rw [hsw0 w.ledger.usdc]
    · refine ⟨w, ?_, by omega, by omega, hreq⟩
      simp only [BeliefStake.rescueTokens]
      rw [if_neg (fun hne => hne hc), if_pos htok]
      simp only [hbpos, if_false]
  · intro htok
    have htr : erc20transfer w token w.ledgerAddr dst (w.bal token w.ledgerAddr) =
        .ok { w with bal := sweepBal w token dst } :=
      erc20transfer_ok_iff.mpr ⟨Nat.le_refl _, rfl⟩
    refine ⟨{ w with bal := sweepBal w token dst }, ?_, ?_, ?_⟩
    · simp only [BeliefStake.rescueTokens]
      rw [if_neg (fun hne => hne hc), if_neg htok]
      exact htr
    · exact hsw0 token
    · exact hswr token

theorem C5_rescueTokens_bound_witness :
    (5 : Nat) = W0c.ledger.owner ∧ (8 : Nat) ≠ W0c.ledgerAddr ∧
    (∃ w', BeliefStake.rescueTokens W0c 5 2 8 = .ok w' ∧
      w'.bal W0c.ledger.usdc W0c.ledgerAddr = 0 ∧
      W0c.bal W0c.ledger.usdc W0c.ledgerAddr - w'.bal W0c.ledger.usdc W0c.ledgerAddr ≤
        W0c.bal W0c.ledger.usdc W0c.ledgerAddr - requiredBacking W0c ∧
      requiredBacking W0c = 0) ∧
    (∃ w', BeliefStake.rescueTokens W0c 5 9 8 = .ok w' ∧
      w'.bal 9 W0c.ledgerAddr = 0 ∧
      w'.bal 9 8 = W0c.bal 9 8 + W0c.bal 9 W0c.ledgerAddr) := by
  have hr : Reach W0c := Reach.init 2 1 3 4 5
    (fun t h => if t = 2 ∧ h = 7 then 10000000 else 0)
    (fun t o s => if t = 2 ∧ o = 7 ∧ s = 1 then 10000000 else 0)
    (by decide) (by decide) (by decide) (by decide) (by decide)
  refine ⟨rfl, by decide, ?_, ?_⟩
  · exact (C5_rescueTokens_bound hr rfl (by decide)).1 rfl
  · exact (C5_rescueTokens_bound hr rfl (by decide)).2 (by decide)
